import Mathlib

/-!
Verification development for the table layout and rendering engine of
`libsmartcols` (`table_print.c`).

The shallow embedding below follows the source file function by function:

* `count_column_width`  — the per-column width measurer (source lines 317-372);
* `recount_widths`      — the layout solver (source lines 377-528), split into
  the same phases the C function performs in sequence: seeding
  (`measureAll`), extremes reduction (`reduceExtremes`), growth
  (`absorb`, `fillLoop`, `spillLast` grouped by `phase45`) and the two-pass
  shrink loop (`shrinkStep`/`shrinkSweep`/`shrinkLoop`);
* the rendering pipeline (`line_get_ascii_art`, `line_get_data`,
  `print_data`, `print_line`, `print_header`, `print_table`, `print_tree`)
  and the public entry points (`scols_print_table`,
  `scols_print_table_to_string`).

Modelling conventions:

* Machine integers: the C code works with `size_t`; widths are modelled as
  `Nat`, and the one place where the source can wrap around zero (the
  `add = cl->width_max - cl->width` computation in the enlargement phase)
  is modelled with explicit arithmetic modulo `SZ = 2^64`.
* External collaborators (`mbs_safe_width`, `mbs_safe_encode`,
  `mbs_truncate`, `fputs_nonblank`, `fputs_quoted`) are consumed as pure
  functions, exactly as the specification's §6 describes them.  For the
  solver, the observed display width of every row of a column (the value
  `mbs_safe_width(line_get_data(...))` that `count_column_width` reads,
  line 335) is recorded in the column's `lens` field, with `none` standing
  for the broken-multibyte sentinel `(size_t)-1`; for the renderer the
  collaborators are fields of an `ExtFns` record.
* Unbounded C loops (the max-out fill loop and the shrink loop) are given
  an explicit fuel parameter; exhausting the fuel returns `none`, which
  models non-termination of the C loop.
* `width_hint` is a C `double`; it is modelled as a rational number.
-/

/-- `2^64`, the modulus of `size_t` arithmetic. -/
def SZ : Nat := 2 ^ 64

/-- A column of the table.  Configuration fields mirror
`struct libscols_column`; `lens` records, for each line of the table, the
display width that the external measurer reports for this column's rendered
cell (see the module comment), and the remaining numeric fields are the
derived layout fields the solver mutates. -/
structure Column where
  width_hint : ℚ := 0
  trunc : Bool := false
  right : Bool := false
  tree : Bool := false
  noextremes : Bool := false
  strict : Bool := false
  seqnum : Nat := 0
  header : Option String := none
  headerColor : Option String := none
  color : Option String := none
  /-- display width of the header text as measured by `mbs_safe_width`;
  `none` when the header cell has no data. -/
  headerLen : Option Nat := none
  /-- per-line observed display widths (`none` = broken multibyte). -/
  lens : List (Option Nat) := []
  width : Nat := 0
  width_min : Nat := 0
  width_max : Nat := 0
  width_avg : Nat := 0
  is_extreme : Bool := false
deriving Repr, DecidableEq, Inhabited

/-- A cell: optional data and an optional color (`struct libscols_cell`). -/
structure TCell where
  data : Option String := none
  color : Option String := none
deriving Repr, DecidableEq, Inhabited

/-- A line: parent pointer (index into the table's line list, `none` for a
root) and its cells (`struct libscols_line`).  The `ln_branch` children list
is recovered from the parent pointers in table order (`branchOf`). -/
structure TLine where
  parent : Option Nat := none
  color : Option String := none
  cells : List TCell := []
deriving Repr, DecidableEq, Inhabited

/-- The table (`struct libscols_table`): columns, lines, tree glyphs, mode
flags and terminal geometry.  `exportFmt` is the `export` flag (the word
`export` is reserved in Lean). -/
structure Table where
  cols : List Column := []
  lines : List TLine := []
  symbols_vert : String := "|-"
  symbols_branch : String := "|-"
  symbols_right : String := "`-"
  raw : Bool := false
  exportFmt : Bool := false
  tree : Bool := false
  noheadings : Bool := false
  maxout : Bool := false
  colors_wanted : Bool := false
  is_term : Bool := false
  termwidth : Nat := 0
  termreduce : Nat := 0
deriving Repr, DecidableEq, Inhabited

/-- `(size_t) cl->width_hint`: truncation of the hint to an integer (the
hint is only cast after a `>= 1` test, where truncation and floor agree). -/
def hintNat (cl : Column) : Nat := (Rat.floor cl.width_hint).toNat

/-- The row loop of `count_column_width` (source lines 332-350): for every
observed width, update `width_max`, skip extreme values when the column is
already flagged extreme, accumulate `sum`/`count` for no-extremes columns
and grow `width`. -/
def ccwStep (cl : Column) (sum : Nat) (count : Nat) :
    List (Option Nat) → Column × Nat × Nat
  | [] => (cl, sum, count)
  | l :: ls =>
    let len := l.getD 0
    let cl := if len > cl.width_max then { cl with width_max := len } else cl
    if cl.is_extreme = true ∧ len > cl.width_avg * 2 then
      ccwStep cl sum count ls
    else
      let sc := if cl.noextremes = true then (sum + len, count + 1) else (sum, count)
      let cl := if len > cl.width then { cl with width := len } else cl
      ccwStep cl sc.1 sc.2 ls

/-- The closing block of `count_column_width` (source lines 352-361): on
the first pass of a column that accumulated a count, derive `width_avg` and
possibly flag the column extreme; then refresh `width_min` from the header
width. -/
def ccwFinalize (cl : Column) (sum count : Nat) : Column :=
  let cl :=
    if count ≠ 0 ∧ cl.width_avg = 0 then
      let avg := sum / count
      { cl with width_avg := avg,
                is_extreme := if cl.width_max > avg * 2 then true else cl.is_extreme }
    else cl
  match cl.headerLen with
  | some h => { cl with width_min := h }
  | none => cl

/-- The enlargement rules of `count_column_width` (source lines 363-371):
grow to the minimal width unless `strict`, otherwise grow to an absolute
hint. -/
def ccwBump (cl : Column) : Column :=
  if cl.width < cl.width_min ∧ cl.strict = false then
    { cl with width := cl.width_min }
  else if 1 ≤ cl.width_hint ∧ cl.width < hintNat cl ∧ cl.width_min < hintNat cl then
    { cl with width := hintNat cl }
  else cl

/-- `count_column_width` (source lines 317-372): reset `width`, run the row
loop, derive `width_avg`/`is_extreme` on the first pass of a no-extremes
column, set `width_min` from the header and apply the minimal-width or
absolute-hint enlargement. -/
def count_column_width (cl : Column) : Column :=
  let r := ccwStep { cl with width := 0 } 0 0 cl.lens
  ccwBump (ccwFinalize r.1 r.2.1 r.2.2)

/-- Sum of the assigned column widths. -/
def sumw (cols : List Column) : Nat := (cols.map Column.width).sum

/-- Achieved output width: `Σ width` plus one separator between adjacent
columns (`ncols - 1` separators). -/
def totalw (cols : List Column) : Nat := sumw cols + (cols.length - 1)

/-- Phase 1 of `recount_widths` (source lines 387-392): measure every
column, accumulate the output width (`+1` separator after every non-last
column) and count the extreme columns. -/
def measureAll : List Column → List Column × Nat × Int
  | [] => ([], 0, 0)
  | cl :: cls =>
    let cl := count_column_width cl
    match cls with
    | [] => ([cl], cl.width, if cl.is_extreme then 1 else 0)
    | _ :: _ =>
      let r := measureAll cls
      (cl :: r.1, cl.width + 1 + r.2.1, (if cl.is_extreme then 1 else 0) + r.2.2)

/-- Phase 3 of `recount_widths` (source lines 399-415): re-measure every
extreme column; subtract any reduction from the running width, otherwise
decrement the extremes counter. -/
def reduceExtremes : List Column → Nat → Int → List Column × Nat × Int
  | [], w, e => ([], w, e)
  | cl :: cls, w, e =>
    if cl.is_extreme = true then
      let org := cl.width
      let cl := count_column_width cl
      let we : Nat × Int :=
        if org > cl.width then (w - (org - cl.width), e) else (w, e - 1)
      let r := reduceExtremes cls we.1 we.2
      (cl :: r.1, r.2.1, r.2.2)
    else
      let r := reduceExtremes cls w e
      (cl :: r.1, r.2.1, r.2.2)

/-- The `add` computed for one extreme column by the absorption loop
(source lines 435-437): `termwidth - width`, capped to
`cl->width_max - cl->width` — `size_t` arithmetic that wraps modulo `2^64`
when `width > width_max`. -/
def absorbAdd (tw : Nat) (cl : Column) (w : Nat) : Nat :=
  if ¬ tw - w = 0 ∧ cl.width_max < cl.width + (tw - w) then
    (SZ + cl.width_max - cl.width) % SZ
  else tw - w

/-- Extreme-column absorption (source lines 420-445): enlarge each extreme
column by `absorbAdd`; stop as soon as the width reaches the terminal
width. -/
def absorb (tw : Nat) : List Column → Nat → List Column × Nat
  | [], w => ([], w)
  | cl :: cls, w =>
    if cl.is_extreme = true then
      let add := absorbAdd tw cl w
      let cl := { cl with width := (cl.width + add) % SZ }
      let w := (w + add) % SZ
      if w = tw then (cl :: cls, w)
      else
        let r := absorb tw cls w
        (cl :: r.1, r.2)
    else
      let r := absorb tw cls w
      (cl :: r.1, r.2)

/-- One sweep of the max-out fill loop (source lines 450-456): `+1` on every
column, stopping as soon as the width reaches the terminal width. -/
def fillSweep (tw : Nat) : List Column → Nat → List Column × Nat
  | [], w => ([], w)
  | cl :: cls, w =>
    let cl := { cl with width := cl.width + 1 }
    let w := w + 1
    if w = tw then (cl :: cls, w)
    else
      let r := fillSweep tw cls w
      (cl :: r.1, r.2)

/-- The max-out fill loop (source lines 449-457), with explicit fuel; the C
loop has no termination guard, so fuel exhaustion (`none`) models
non-termination. -/
def fillLoop (tw : Nat) : Nat → List Column → Nat → Option (List Column × Nat)
  | fuel, cols, w =>
    if w < tw then
      match fuel with
      | 0 => none
      | fuel + 1 =>
        let r := fillSweep tw cols w
        fillLoop tw fuel r.1 r.2
    else some (cols, w)

/-- Last-column spill (source lines 458-467): give the whole remainder to
the last column unless it is right-aligned.  The C code reaches the last
column directly through `tb->tb_columns.prev`; here the recursion walks to
it, leaving every other column untouched. -/
def spillLast (tw : Nat) : List Column → Nat → List Column × Nat
  | [], w => ([], w)
  | [cl], w =>
    if cl.right = false ∧ 0 < tw - w then
      ([{ cl with width := cl.width + (tw - w) }], tw)
    else ([cl], w)
  | cl :: cls, w =>
    let r := spillLast tw cls w
    (cl :: r.1, r.2)

/-- The body of the shrink sweep for one column (source lines 482-503):
the skip rules in source order, then the two decrement clauses (relative
hint above its floor; absolute hint in the unrestricted pass). -/
def shrinkStep (tw : Nat) (truncOnly : Bool) (cl : Column) (w : Nat) :
    Column × Nat :=
  if cl.width_hint > 1 ∧ cl.trunc = false then (cl, w)
  else if cl.tree = true then (cl, w)
  else if truncOnly = true ∧ cl.trunc = false then (cl, w)
  else if cl.width = cl.width_min then (cl, w)
  else
    let s :=
      if cl.width_hint < 1 ∧ 0 < cl.width ∧ 0 < w ∧
          cl.width_hint * tw < (cl.width : ℚ) then
        ({ cl with width := cl.width - 1 }, w - 1)
      else (cl, w)
    let cl := s.1
    let w := s.2
    if cl.width_hint > 1 ∧ 0 < cl.width ∧ 0 < w ∧ truncOnly = false then
      ({ cl with width := cl.width - 1 }, w - 1)
    else (cl, w)

/-- One full sweep of the shrink loop over the columns (source lines
478-504); the sweep stops early once the width is within the budget. -/
def shrinkSweep (tw : Nat) (truncOnly : Bool) : List Column → Nat → List Column × Nat
  | [], w => ([], w)
  | cl :: cls, w =>
    if w ≤ tw then (cl :: cls, w)
    else
      let s := shrinkStep tw truncOnly cl w
      let r := shrinkSweep tw truncOnly cls s.2
      (s.1 :: r.1, r.2)

/-- The outer shrink loop (source lines 474-511): sweep while the width
exceeds the budget; a sweep that reduces nothing switches the truncate-only
pass off, and a stalled unrestricted sweep gives up (the returned `Bool` is
the stall flag).  Fuel exhaustion returns `none`. -/
def shrinkLoop (tw : Nat) : Nat → List Column → Nat → Bool → Option (List Column × Nat × Bool)
  | fuel, cols, w, truncOnly =>
    if w > tw then
      match fuel with
      | 0 => none
      | fuel + 1 =>
        let r := shrinkSweep tw truncOnly cols w
        if r.2 = w then
          if truncOnly = true then shrinkLoop tw fuel r.1 r.2 false
          else some (r.1, r.2, true)
        else shrinkLoop tw fuel r.1 r.2 truncOnly
    else some (cols, w, false)

/-- The growth block of `recount_widths` (source lines 417-468): when the
width is short of the terminal, absorb into extreme columns, then either
run the max-out fill loop or spill into the last column. -/
def phase45 (maxout : Bool) (tw fuel : Nat) (cols : List Column) (w : Nat)
    (e : Int) : Option (List Column × Nat) :=
  if w < tw then
    let r := if e ≠ 0 then absorb tw cols w else (cols, w)
    let cols := r.1
    let w := r.2
    if w < tw ∧ maxout = true then fillLoop tw fuel cols w
    else if w < tw then some (spillLast tw cols w)
    else some (cols, w)
  else some (cols, w)

/-- `recount_widths` (source lines 377-528): seed the widths, return as-is
for non-terminal output, reduce extremes when over budget, grow when under
budget, then shrink to fit.  The result is the final column list, the
achieved width and the stall flag of the shrink loop. -/
def recount_widths (fuel : Nat) (tb : Table) : Option (List Column × Nat × Bool) :=
  let m := measureAll tb.cols
  let cols := m.1
  let w := m.2.1
  let e := m.2.2
  if tb.is_term = false then some (cols, w, false)
  else
    let rd :=
      if w > tb.termwidth ∧ e ≠ 0 then reduceExtremes cols w e else (cols, w, e)
    match phase45 tb.maxout tb.termwidth fuel rd.1 rd.2.1 rd.2.2 with
    | none => none
    | some (cols, w) => shrinkLoop tb.termwidth fuel cols w true

/-- The observed display widths of a column's rows, with the
broken-multibyte sentinel already collapsed to `0` (source lines 335-338). -/
def obsLens (cl : Column) : List Nat := cl.lens.map (fun l => l.getD 0)

/-- Largest observed width of a list of rows. -/
def maxL (ls : List (Option Nat)) : Nat := (ls.map (fun l => l.getD 0)).foldr max 0

/-- Largest observed width among the rows that a measurement in state
`(e, a)` does not skip: when `e` is set, rows wider than `2*a` are
ignored. -/
def filtMax (e : Bool) (a : Nat) (ls : List (Option Nat)) : Nat :=
  ((ls.map (fun l => l.getD 0)).filter (fun n => !(e && decide (n > a * 2)))).foldr max 0

/-- The suppressed natural data width of a column: the largest observed row
width among the rows its current measurement state admits. -/
def suppMax (cl : Column) : Nat := filtMax cl.is_extreme cl.width_avg cl.lens

/-- Sum of the observed widths of a column's rows. -/
def sumLens (cl : Column) : Nat := (obsLens cl).sum

/-- The observed widths that a measurement of the column in its current
state does not skip. -/
def keptLens (cl : Column) : List Nat :=
  (obsLens cl).filter (fun n => !(cl.is_extreme && decide (n > cl.width_avg * 2)))

/-! Concrete tables exercising the solver.  `exA`/`exB` build the table
`exT3` on which the enlargement phase's `size_t` underflow drives an extreme
column below its minimal width; `exW`/`exA5` build `exT5`, on which the same
underflow makes a second `solve()` run produce different widths; `exA4`/`exB4`
build `exT4`, on which the extremes-reduction phase shrinks a tree column
below its first measured width. -/

def exA : Column :=
  { noextremes := true, headerLen := some 10, lens := [some 1, some 1, some 9], seqnum := 0 }

def exB : Column :=
  { headerLen := some 1, lens := [some 5, some 5, some 5], seqnum := 1 }

def exT3 : Table := { cols := [exA, exB], is_term := true, termwidth := 20 }

def exW : Column :=
  { noextremes := true, headerLen := some 10, lens := [some 1, some 1, some 9], seqnum := 0 }

def exA5 : Column :=
  { noextremes := true, headerLen := some 1, lens := [some 1, some 1, some 10], seqnum := 1 }

def exT5 : Table := { cols := [exW, exA5], is_term := true, termwidth := 21 }

def exA4 : Column :=
  { tree := true, noextremes := true, headerLen := some 1,
    lens := [some 1, some 1, some 9], seqnum := 0 }

def exB4 : Column :=
  { headerLen := some 1, lens := [some 15], seqnum := 1 }

def exT4 : Table := { cols := [exA4, exB4], is_term := true, termwidth := 20 }

/-- A column with an absolute hint and without the `trunc` flag, for the
shrink-loop skip-rule analysis. -/
def exC2 : Column := { width_hint := 5, width := 5, width_min := 1 }

/-- A column with an absolute hint and with the `trunc` flag. -/
def exC2t : Column := { width_hint := 5, trunc := true, width := 5, width_min := 1 }

/-- The `no-extremes` column of the specification's extreme-suppression
scenario, with observed widths `{3, 3, 3, 3, 30}`. -/
def exC6 : Column := { noextremes := true, lens := [some 3, some 3, some 3, some 3, some 30] }

/-- A simple one-column max-out table on a 10-cell terminal, used to
witness the budget theorem. -/
def exC1 : Table :=
  { cols := [{ lens := [some 3] }], is_term := true, termwidth := 10, maxout := true }

/-- The solver's result on `exC1`. -/
def exC1res : List Column × Nat × Bool := (recount_widths 100 exC1).getD ([], 0, false)

/-- The solver's result on `exT4`. -/
def exT4res : List Column × Nat × Bool := (recount_widths 100 exT4).getD ([], 0, false)

/-- The fields of a column that the growth and shrink phases of the solver
never touch (they only reassign `width`): the observed rows, the
measurement state, the recorded maximum and the tree flag. -/
def confSame (a b : Column) : Prop :=
  b.lens = a.lens ∧ b.width_avg = a.width_avg ∧ b.is_extreme = a.is_extreme ∧
  b.width_max = a.width_max ∧ b.tree = a.tree

-- ===================================================================
-- Renderer: tree prefixes, print_data, print loops, entry points
-- ===================================================================

/-- UTF-8 byte length of a string (C `strlen`, `snprintf` byte budgets). -/
def bytesOf (s : String) : Nat := (s.data.map Char.utf8Size).sum

/-- Concatenation of a list of strings (successive `fputs`/`memcpy`). -/
def joinStr : List String → String
  | [] => ""
  | s :: r => s ++ joinStr r

/-- Longest prefix of a character list that fits in `n` bytes. -/
def takeBytesL : List Char → Nat → List Char
  | [], _ => []
  | c :: cs, n => if c.utf8Size ≤ n then c :: takeBytesL cs (n - c.utf8Size) else []

/-- Longest prefix of a string that fits in `n` bytes.  C truncation cuts
at byte granularity and may split a multibyte character; the model cuts at
character granularity, which agrees whenever the data fits the buffer. -/
def takeBytes (s : String) (n : Nat) : String := String.mk (takeBytesL s.data n)

/-- `strncpy(buf, s, bufsz); buf[bufsz-1] = 0`: at most `bufsz - 1`
payload bytes survive. -/
def strTakeBytes (s : String) (bufsz : Nat) : String := takeBytes s (bufsz - 1)

/-- `snprintf(p, bufsz, ...)`: writes nothing when `bufsz` is zero, else at
most `bufsz - 1` payload bytes. -/
def snprintfStr (s : String) (bufsz : Nat) : String :=
  if bufsz = 0 then "" else takeBytes s (bufsz - 1)

/-- Line lookup by index (`scols_table_get_line`). -/
def getLine (tb : Table) (i : Nat) : Option TLine := tb.lines.get? i

/-- The parent index of line `i` (`ln->parent`), if any. -/
def parentOf (tb : Table) (i : Nat) : Option Nat :=
  match getLine tb i with
  | some ln => ln.parent
  | none => none

/-- The children of line `i` in table order (`ln->ln_branch`): lines are
appended to their parent branch list in insertion order. -/
def childrenOf (tb : Table) (i : Nat) : List Nat :=
  (List.range tb.lines.length).filter (fun j => parentOf tb j = some i)

/-- `list_entry_is_last(&ln->ln_children, &ln->parent->ln_branch)`: line
`i` is the last child among its siblings (vacuously true for a root, where
the source never asks). -/
def isLastChild (tb : Table) (i : Nat) : Bool :=
  match parentOf tb i with
  | none => true
  | some p => (childrenOf tb p).getLast? = some i

/-- Well-formed parent pointers: every parent sits strictly earlier in the
line list.  This is how the library builds trees (a line is added after
its parent); it bounds the depth of every ancestor chain. -/
def parentsWF (tb : Table) : Bool :=
  (List.range tb.lines.length).all (fun i =>
    match parentOf tb i with
    | none => true
    | some p => decide (p < i))

/-- `line_get_ascii_art` (source lines 136-164): walk from line `i` up to
the root, then, coming back down, append per non-root ancestor two spaces
if that ancestor is the last child among its siblings, else the `vert`
glyph, tracking the remaining buffer space.  `none` models both the
`*bufsz < len` internal-error exit and a parent cycle (fuel exhaustion =
unbounded recursion). -/
def line_get_ascii_art (tb : Table) : Nat → Nat → Nat → Option (String × Nat)
  | 0, _, _ => none
  | fuel + 1, i, bufsz =>
    match parentOf tb i with
    | none => some ("", bufsz)
    | some p =>
      match line_get_ascii_art tb fuel p bufsz with
      | none => none
      | some (s, bsz) =>
        let art := if isLastChild tb i then "  " else tb.symbols_vert
        if bsz < bytesOf art then none
        else some (s ++ art, bsz - bytesOf art)

/-- Specification-side glyph list for the ancestor walk (spec §4.C): one
glyph per ancestor level from the root down to line `i`, two spaces when
that ancestor is the last child among its siblings, else `vert`. -/
def ancGlyphs (tb : Table) : Nat → Nat → List String
  | 0, _ => []
  | fuel + 1, i =>
    match parentOf tb i with
    | none => []
    | some p => ancGlyphs tb fuel p ++ [if isLastChild tb i then "  " else tb.symbols_vert]

/-- `line_get_data` (source lines 166-213): fetch the cell data for column
`cl` on line `i` (`none` when the cell or its data is absent); plain
columns are copied with `strncpy`; for the tree column the ancestor art of
the parent is laid down first, then the line's own connector (`right` for
a last child, `branch` otherwise) and the data via `snprintf` into the
remaining space. -/
def line_get_data (tb : Table) (i : Nat) (cl : Column) (bufsz : Nat) : Option String :=
  match getLine tb i with
  | none => none
  | some ln =>
    match (ln.cells.get? cl.seqnum).bind (fun c => c.data) with
    | none => none
    | some data =>
      if cl.tree = false then some (strTakeBytes data bufsz)
      else
        match ln.parent with
        | none => some (snprintfStr data bufsz)
        | some p =>
          match line_get_ascii_art tb (tb.lines.length + 1) p bufsz with
          | none => none
          | some sp =>
            some (sp.1 ++ snprintfStr
              ((if isLastChild tb i then tb.symbols_right else tb.symbols_branch) ++ data)
              sp.2)

/-- External text services used by `print_data`: `mbs_safe_encode` (encoded
copy and display width, `none` buffer = allocation failure, `none` width =
the `(size_t) -1` sentinel), `mbs_truncate` (truncated text, new display
width or the sentinel, updated cell budget), `fputs_nonblank` and
`fputs_quoted`. -/
structure ExtFns where
  safe_encode : String → Option String × Option Nat
  truncate3 : String → Nat → String × Option Nat × Nat
  nonblank : String → String
  quoted : String → String

/-- A concrete ASCII instance of the external services. -/
def extId : ExtFns :=
  { safe_encode := fun s => (some s, some s.length),
    truncate3 := fun s n => (takeBytes s n, some (min s.length n), min s.length n),
    nonblank := fun s => s,
    quoted := fun s => "\"" ++ s ++ "\"" }

/-- The ANSI reset sequence written after colored output. -/
def UL_COLOR_RESET : String := "\x1b[0m"

/-- `fprintf("%*s", xw, d)`: right-align `d` in a field of `xw` bytes. -/
def rightAlign (xw : Nat) (d : String) : String :=
  String.mk (List.replicate (xw - bytesOf d) ' ') ++ d

/-- `print_data` (source lines 34-134): raw and export modes short-circuit;
otherwise resolve the color (cell, then line, then column), safe-encode the
data, collapse zero or unmeasurable width to absent data, shrink the cell
budget for a non-max-out last column, truncate overlong data in a `trunc`
column, emit the (possibly right-aligned, possibly colored) text, pad with
spaces to the cell budget, and append the separator — a newline plus
alignment filler when untruncatable data overflowed a non-last column, a
single space otherwise. -/
def print_data (ext : ExtFns) (tb : Table) (cl : Column) (ln : Option TLine)
    (ce : Option TCell) (data0 : Option String) (is_last : Bool) : String :=
  let data := data0.getD ""
  if tb.raw then
    ext.nonblank data ++ (if is_last then "" else " ")
  else if tb.exportFmt then
    (cl.header.getD "") ++ "=" ++ ext.quoted data ++ (if is_last then "" else " ")
  else
    let color : Option String :=
      if tb.colors_wanted then
        let c1 : Option String := match ce with
          | some c => c.color
          | none => none
        let c2 : Option String := match c1 with
          | some c => some c
          | none => match ln with
            | some l => l.color
            | none => none
        match c2 with
        | some c => some c
        | none => cl.color
      else none
    let enc := ext.safe_encode data
    let dataE : String := (enc.1).getD ""
    let p1 : Nat × Option String :=
      match enc.2 with
      | none => (0, none)
      | some 0 => (0, none)
      | some l => (l, some dataE)
    let width := if is_last ∧ p1.1 < cl.width ∧ tb.maxout = false then p1.1 else cl.width
    let p2 : Nat × Option String × Nat :=
      if p1.1 > width ∧ cl.trunc then
        match p1.2 with
        | some d =>
          let r := ext.truncate3 d width
          (match r.2.1 with
           | none => (0, none, r.2.2)
           | some l2 => (l2, some r.1, r.2.2))
        | none => (0, none, width)
      else (p1.1, p1.2, width)
    let body : String × Nat :=
      match p2.2.1 with
      | some d =>
        if tb.raw = false ∧ cl.right then
          ((match color with | some c => c | none => "") ++ rightAlign cl.width d ++
            (match color with | some _ => UL_COLOR_RESET | none => ""),
           max p2.1 cl.width)
        else
          ((match color with | some c => c | none => "") ++ d ++
            (match color with | some _ => UL_COLOR_RESET | none => ""),
           p2.1)
      | none => ("", p2.1)
    body.1 ++ String.mk (List.replicate (p2.2.2 - body.2) ' ') ++
      (if is_last then ""
       else if body.2 > p2.2.2 ∧ cl.trunc = false then
         "\n" ++ joinStr ((tb.cols.take (cl.seqnum + 1)).map
           (fun x => String.mk (List.replicate (max x.width 1) ' ') ++ " "))
       else " ")

/-- The column loop of `print_line`: every column's cell, the last one
flagged as last. -/
def print_cells (ext : ExtFns) (tb : Table) (i : Nat) (ln : TLine) (bufsz : Nat) :
    List Column → String
  | [] => ""
  | [cl] => print_data ext tb cl (some ln) (ln.cells.get? cl.seqnum)
      (line_get_data tb i cl bufsz) true
  | cl :: cl2 :: cls =>
    print_data ext tb cl (some ln) (ln.cells.get? cl.seqnum)
      (line_get_data tb i cl bufsz) false ++
    print_cells ext tb i ln bufsz (cl2 :: cls)

/-- `print_line` (source lines 219-236): all cells of line `i`, then a
newline. -/
def print_line (ext : ExtFns) (tb : Table) (i : Nat) (bufsz : Nat) : String :=
  match getLine tb i with
  | none => "\n"
  | some ln => print_cells ext tb i ln bufsz tb.cols ++ "\n"

/-- The column loop of `print_header`: each header cell is copied into the
line buffer with `strncpy` and printed through `print_data` with the
header cell as the cell argument and no line. -/
def print_header_cells (ext : ExtFns) (tb : Table) (bufsz : Nat) : List Column → String
  | [] => ""
  | [cl] => print_data ext tb cl none (some { data := cl.header, color := cl.headerColor })
      (some (strTakeBytes (cl.header.getD "") bufsz)) true
  | cl :: cl2 :: cls =>
    print_data ext tb cl none (some { data := cl.header, color := cl.headerColor })
      (some (strTakeBytes (cl.header.getD "") bufsz)) false ++
    print_header_cells ext tb bufsz (cl2 :: cls)

/-- `print_header` (source lines 238-259): nothing under `noheadings`, in
export mode, or for an empty table; else one header row. -/
def print_header (ext : ExtFns) (tb : Table) (bufsz : Nat) : String :=
  if tb.noheadings ∨ tb.exportFmt ∨ tb.lines = [] then ""
  else print_header_cells ext tb bufsz tb.cols ++ "\n"

/-- `print_table` (source lines 261-274): header then every line in table
order. -/
def print_table (ext : ExtFns) (tb : Table) (bufsz : Nat) : String :=
  print_header ext tb bufsz ++
    joinStr ((List.range tb.lines.length).map (fun i => print_line ext tb i bufsz))

/-- `print_tree_line` (source lines 276-293): the line, then recursively
each of its children in order; fuel bounds the tree depth. -/
def print_tree_line (ext : ExtFns) (tb : Table) (bufsz : Nat) : Nat → Nat → String
  | 0, _ => ""
  | fuel + 1, i =>
    print_line ext tb i bufsz ++
      joinStr ((childrenOf tb i).map (fun j => print_tree_line ext tb bufsz fuel j))

/-- `print_tree` (source lines 295-306): header, then every root line with
its subtree. -/
def print_tree (ext : ExtFns) (tb : Table) (bufsz : Nat) : String :=
  print_header ext tb bufsz ++
    joinStr (((List.range tb.lines.length).filter (fun i => parentOf tb i = none)).map
      (fun i => print_tree_line ext tb bufsz (tb.lines.length + 1) i))

/-- `strlen_line` (source lines 529-543): total byte length of the present
cell data of a line. -/
def strlen_line (ln : TLine) : Nat :=
  (ln.cells.map (fun c => match c.data with | some d => bytesOf d | none => 0)).sum

/-- errno values used by the entry points. -/
def ENOMEM : Int := 12

/-- `EINVAL`. -/
def EINVAL : Int := 22

/-- `ENOSYS`. -/
def ENOSYS : Int := 38

/-- `scols_print_table` (source lines 553-597): `-1` for an absent table;
terminal geometry is sampled (`istty`, `termw` stand for `isatty` and
`get_terminal_width`, zero or unset falls back to 80, reduced by
`termreduce` in `size_t`); the line buffer is sized by the longest line;
`-ENOMEM` when its allocation fails (`mallocOk`); widths are recomputed
outside raw/export mode; then the tree or flat printer runs and 0 is
returned.  `none` models a non-terminating width computation. -/
def scols_print_table (ext : ExtFns) (tb0 : Option Table) (istty : Bool) (termw : Nat)
    (mallocOk : Bool) (fuel : Nat) : Option (Int × String) :=
  match tb0 with
  | none => some (-1, "")
  | some tb =>
    let tw0 : Nat := if istty then termw else 0
    let tw1 : Nat := if tw0 = 0 then 80 else tw0
    let tw2 : Nat := (tw1 + (SZ - tb.termreduce % SZ)) % SZ
    let tb1 : Table := { tb with is_term := istty, termwidth := tw2 }
    let line_sz := (tb1.lines.map strlen_line).foldl max tb1.termwidth + 1
    if mallocOk = false then some (-ENOMEM, "")
    else
      match (if tb1.raw ∨ tb1.exportFmt then some (tb1.cols, 0, false)
             else recount_widths fuel tb1) with
      | none => none
      | some r =>
        let tb2 : Table := if tb1.raw ∨ tb1.exportFmt then tb1 else { tb1 with cols := r.1 }
        some (0, if tb2.tree then print_tree ext tb2 line_sz else print_table ext tb2 line_sz)

/-- `scols_print_table_to_string` (source lines 608-630): `-ENOSYS`
without `open_memstream` support, `-EINVAL` for an absent table, `-ENOMEM`
when the stream cannot be created; otherwise the table is printed into the
in-memory buffer, the inner status is discarded, and 0 is returned with
the buffer. -/
def scols_print_table_to_string (ext : ExtFns) (have_memstream streamOk : Bool)
    (tb0 : Option Table) (istty : Bool) (termw : Nat) (mallocOk : Bool) (fuel : Nat) :
    Option (Int × Option String) :=
  if have_memstream = false then some (-ENOSYS, none)
  else
    match tb0 with
    | none => some (-EINVAL, none)
    | some tb =>
      if streamOk = false then some (-ENOMEM, none)
      else
        match scols_print_table ext (some tb) istty termw mallocOk fuel with
        | none => none
        | some r => some (0, some r.2)

/-- The specification's example forest: roots `r` (children `c1`, `c2`)
and the grandchild `g` under `c2`. -/
def exC7tb : Table :=
  { cols := [{ tree := true, seqnum := 0 }],
    lines := [{ parent := none, cells := [{ data := some "r" }] },
              { parent := some 0, cells := [{ data := some "c1" }] },
              { parent := some 0, cells := [{ data := some "c2" }] },
              { parent := some 2, cells := [{ data := some "g" }] }],
    symbols_vert := "| ", symbols_branch := "|-", symbols_right := "L-",
    tree := true }

/-- The tree column of `exC7tb`. -/
def exC7cl : Column := { tree := true, seqnum := 0 }

/-- The fourth line of `exC7tb` (the grandchild `g`). -/
def exC7g : TLine := { parent := some 2, cells := [{ data := some "g" }] }

/-- An empty table for the entry-point example. -/
def exC8 : Table := { }

/-- A table and a column for the blank-cell example. -/
def exC10tb : Table := { }

/-- The blank-cell example column. -/
def exC10cl : Column := { width := 3 }

-- ===================================================================
-- Theorems
-- ===================================================================

theorem ccw_decomp (cl : Column) :
    count_column_width cl =
      ccwBump (ccwFinalize (ccwStep { cl with width := 0 } 0 0 cl.lens).1
        (ccwStep { cl with width := 0 } 0 0 cl.lens).2.1
        (ccwStep { cl with width := 0 } 0 0 cl.lens).2.2) := rfl

/-- The row loop only writes the `width` and `width_max` fields; every
other field of the column survives it unchanged. -/
theorem ccwStep_conf (ls : List (Option Nat)) : ∀ (cl : Column) (s c : Nat),
    (ccwStep cl s c ls).1.width_hint = cl.width_hint ∧
    (ccwStep cl s c ls).1.trunc = cl.trunc ∧
    (ccwStep cl s c ls).1.right = cl.right ∧
    (ccwStep cl s c ls).1.tree = cl.tree ∧
    (ccwStep cl s c ls).1.noextremes = cl.noextremes ∧
    (ccwStep cl s c ls).1.strict = cl.strict ∧
    (ccwStep cl s c ls).1.seqnum = cl.seqnum ∧
    (ccwStep cl s c ls).1.header = cl.header ∧
    (ccwStep cl s c ls).1.headerColor = cl.headerColor ∧
    (ccwStep cl s c ls).1.color = cl.color ∧
    (ccwStep cl s c ls).1.headerLen = cl.headerLen ∧
    (ccwStep cl s c ls).1.lens = cl.lens ∧
    (ccwStep cl s c ls).1.width_min = cl.width_min ∧
    (ccwStep cl s c ls).1.width_avg = cl.width_avg ∧
    (ccwStep cl s c ls).1.is_extreme = cl.is_extreme := by
  induction ls with
  | nil => intro cl s c; simp [ccwStep]
  | cons l ls ih =>
    intro cl s c
    simp only [ccwStep]
    split_ifs <;> simp [ih]

theorem filtMax_cons (e : Bool) (a : Nat) (l : Option Nat) (ls : List (Option Nat)) :
    filtMax e a (l :: ls) =
      if e = true ∧ l.getD 0 > a * 2 then filtMax e a ls
      else max (l.getD 0) (filtMax e a ls) := by
  simp only [filtMax, List.map_cons, List.filter_cons]
  split_ifs with h1 h2 h2 <;> simp_all

theorem maxL_cons (l : Option Nat) (ls : List (Option Nat)) :
    maxL (l :: ls) = max (l.getD 0) (maxL ls) := rfl

/-- When the measurement state is not extreme, no row is filtered. -/
theorem filtMax_false (a : Nat) : ∀ ls : List (Option Nat), filtMax false a ls = maxL ls := by
  intro ls
  induction ls with
  | nil => rfl
  | cons l ls ih => rw [filtMax_cons, maxL_cons, ih]; simp

/-- The row loop computes the maximum of the admitted observed widths. -/
theorem ccwStep_width (ls : List (Option Nat)) : ∀ (cl : Column) (s c : Nat),
    (ccwStep cl s c ls).1.width = max cl.width (filtMax cl.is_extreme cl.width_avg ls) := by
  induction ls with
  | nil => intro cl s c; simp [ccwStep, filtMax]
  | cons l ls ih =>
    intro cl s c
    rw [filtMax_cons]
    simp only [ccwStep]
    split_ifs <;> simp_all [ih] <;> omega

/-- The row loop updates `width_max` with every observed width. -/
theorem ccwStep_wmax (ls : List (Option Nat)) : ∀ (cl : Column) (s c : Nat),
    (ccwStep cl s c ls).1.width_max = max cl.width_max (maxL ls) := by
  induction ls with
  | nil => intro cl s c; simp [ccwStep, maxL]
  | cons l ls ih =>
    intro cl s c
    rw [maxL_cons]
    simp only [ccwStep]
    split_ifs <;> simp_all [ih] <;> omega

/-- In an extreme state with zero average, every positive row is skipped,
so the accumulated sum stays put. -/
theorem ccwStep_sum_zero (ls : List (Option Nat)) : ∀ (cl : Column) (s c : Nat),
    cl.is_extreme = true → cl.width_avg = 0 → (ccwStep cl s c ls).2.1 = s := by
  induction ls with
  | nil => intro cl s c _ _; rfl
  | cons l ls ih =>
    intro cl s c he ha
    simp only [ccwStep]
    split_ifs <;> simp_all [ih]

/-- On a first pass of a no-extremes column, every row contributes to the
sum and the count. -/
theorem ccwStep_noext (ls : List (Option Nat)) : ∀ (cl : Column) (s c : Nat),
    cl.is_extreme = false → cl.noextremes = true →
    (ccwStep cl s c ls).2.2 = c + ls.length ∧
    (ccwStep cl s c ls).2.1 = s + (ls.map (fun l => l.getD 0)).sum := by
  induction ls with
  | nil => intro cl s c _ _; simp [ccwStep]
  | cons l ls ih =>
    intro cl s c he hne
    simp only [ccwStep]
    split_ifs <;> simp_all [ih] <;> omega

/-- `ccwFinalize` only writes `width_avg`, `is_extreme` and `width_min`. -/
theorem ccwFinalize_conf (cl : Column) (s c : Nat) :
    (ccwFinalize cl s c).width_hint = cl.width_hint ∧
    (ccwFinalize cl s c).trunc = cl.trunc ∧
    (ccwFinalize cl s c).right = cl.right ∧
    (ccwFinalize cl s c).tree = cl.tree ∧
    (ccwFinalize cl s c).noextremes = cl.noextremes ∧
    (ccwFinalize cl s c).strict = cl.strict ∧
    (ccwFinalize cl s c).seqnum = cl.seqnum ∧
    (ccwFinalize cl s c).header = cl.header ∧
    (ccwFinalize cl s c).headerColor = cl.headerColor ∧
    (ccwFinalize cl s c).color = cl.color ∧
    (ccwFinalize cl s c).headerLen = cl.headerLen ∧
    (ccwFinalize cl s c).lens = cl.lens ∧
    (ccwFinalize cl s c).width = cl.width ∧
    (ccwFinalize cl s c).width_max = cl.width_max := by
  unfold ccwFinalize
  split_ifs <;> cases h : cl.headerLen <;> simp_all

/-- On a column's first pass (`width_avg = 0`) with a positive count,
`ccwFinalize` derives the average and the extreme flag. -/
theorem ccwFinalize_fresh (cl : Column) (s c : Nat) (hc : c ≠ 0) (ha : cl.width_avg = 0) :
    (ccwFinalize cl s c).width_avg = s / c ∧
    (ccwFinalize cl s c).is_extreme =
      (if cl.width_max > (s / c) * 2 then true else cl.is_extreme) := by
  unfold ccwFinalize
  split_ifs <;> cases h : cl.headerLen <;> simp_all

/-- When the average is already set (or nothing was counted),
`ccwFinalize` leaves `width_avg` and `is_extreme` alone. -/
theorem ccwFinalize_stable (cl : Column) (s c : Nat) (h : c = 0 ∨ cl.width_avg ≠ 0) :
    (ccwFinalize cl s c).width_avg = cl.width_avg ∧
    (ccwFinalize cl s c).is_extreme = cl.is_extreme := by
  unfold ccwFinalize
  split_ifs <;> cases hh : cl.headerLen <;> simp_all <;> tauto

/-- Without header data, `ccwFinalize` keeps the previous `width_min`. -/
theorem ccwFinalize_min_none (cl : Column) (s c : Nat) (hh : cl.headerLen = none) :
    (ccwFinalize cl s c).width_min = cl.width_min := by
  unfold ccwFinalize
  split_ifs <;> simp_all

/-- With header data of width `h`, `ccwFinalize` sets `width_min := h`. -/
theorem ccwFinalize_min_some (cl : Column) (s c h : Nat) (hh : cl.headerLen = some h) :
    (ccwFinalize cl s c).width_min = h := by
  unfold ccwFinalize
  split_ifs <;> simp_all

/-- `ccwBump` only writes `width`. -/
theorem ccwBump_conf (cl : Column) :
    (ccwBump cl).width_hint = cl.width_hint ∧
    (ccwBump cl).trunc = cl.trunc ∧
    (ccwBump cl).right = cl.right ∧
    (ccwBump cl).tree = cl.tree ∧
    (ccwBump cl).noextremes = cl.noextremes ∧
    (ccwBump cl).strict = cl.strict ∧
    (ccwBump cl).seqnum = cl.seqnum ∧
    (ccwBump cl).header = cl.header ∧
    (ccwBump cl).headerColor = cl.headerColor ∧
    (ccwBump cl).color = cl.color ∧
    (ccwBump cl).headerLen = cl.headerLen ∧
    (ccwBump cl).lens = cl.lens ∧
    (ccwBump cl).width_min = cl.width_min ∧
    (ccwBump cl).width_max = cl.width_max ∧
    (ccwBump cl).width_avg = cl.width_avg ∧
    (ccwBump cl).is_extreme = cl.is_extreme := by
  unfold ccwBump
  split_ifs <;> simp_all

/-- `count_column_width` only writes the derived numeric fields; the
configuration of the column survives it unchanged. -/
theorem ccw_conf (cl : Column) :
    (count_column_width cl).width_hint = cl.width_hint ∧
    (count_column_width cl).trunc = cl.trunc ∧
    (count_column_width cl).right = cl.right ∧
    (count_column_width cl).tree = cl.tree ∧
    (count_column_width cl).noextremes = cl.noextremes ∧
    (count_column_width cl).strict = cl.strict ∧
    (count_column_width cl).seqnum = cl.seqnum ∧
    (count_column_width cl).header = cl.header ∧
    (count_column_width cl).headerColor = cl.headerColor ∧
    (count_column_width cl).color = cl.color ∧
    (count_column_width cl).headerLen = cl.headerLen ∧
    (count_column_width cl).lens = cl.lens := by
  rw [ccw_decomp]
  have hs := ccwStep_conf cl.lens { cl with width := 0 } 0 0
  have hf := ccwFinalize_conf (ccwStep { cl with width := 0 } 0 0 cl.lens).1
    (ccwStep { cl with width := 0 } 0 0 cl.lens).2.1
    (ccwStep { cl with width := 0 } 0 0 cl.lens).2.2
  have hb := ccwBump_conf (ccwFinalize (ccwStep { cl with width := 0 } 0 0 cl.lens).1
    (ccwStep { cl with width := 0 } 0 0 cl.lens).2.1
    (ccwStep { cl with width := 0 } 0 0 cl.lens).2.2)
  simp_all

/-- `ccwBump` only enlarges the assigned width. -/
theorem ccwBump_width_ge (cl : Column) : cl.width ≤ (ccwBump cl).width := by
  unfold ccwBump
  split_ifs <;> simp_all <;> omega

/-- With a zero minimal width and a fractional hint, `ccwBump` is the
identity. -/
theorem ccwBump_id (cl : Column) (hm : cl.width_min = 0) (hf : cl.width_hint < 1) :
    ccwBump cl = cl := by
  unfold ccwBump
  have : ¬ (1 : ℚ) ≤ cl.width_hint := not_le.mpr hf
  split_ifs <;> simp_all

/-- For a column with no header data, a zero minimal width and a
fractional hint, `count_column_width` assigns exactly the suppressed
natural data width: the largest observed row width among the rows that the
column's current measurement state admits. -/
theorem ccw_width_nobump (cl : Column) (hh : cl.headerLen = none) (hm : cl.width_min = 0)
    (hf : cl.width_hint < 1) :
    (count_column_width cl).width = suppMax cl := by
  rw [ccw_decomp]
  have hs := ccwStep_conf cl.lens { cl with width := 0 } 0 0
  have hwd := ccwStep_width cl.lens { cl with width := 0 } 0 0
  have hminf : (ccwFinalize (ccwStep { cl with width := 0 } 0 0 cl.lens).1
      (ccwStep { cl with width := 0 } 0 0 cl.lens).2.1
      (ccwStep { cl with width := 0 } 0 0 cl.lens).2.2).width_min = 0 := by
    rw [ccwFinalize_min_none]
    · exact hs.2.2.2.2.2.2.2.2.2.2.2.2.1.trans (by simp [hm])
    · exact hs.2.2.2.2.2.2.2.2.2.2.1.trans (by simp [hh])
  have hhintf : (ccwFinalize (ccwStep { cl with width := 0 } 0 0 cl.lens).1
      (ccwStep { cl with width := 0 } 0 0 cl.lens).2.1
      (ccwStep { cl with width := 0 } 0 0 cl.lens).2.2).width_hint < 1 := by
    have h1 := (ccwFinalize_conf (ccwStep { cl with width := 0 } 0 0 cl.lens).1
      (ccwStep { cl with width := 0 } 0 0 cl.lens).2.1
      (ccwStep { cl with width := 0 } 0 0 cl.lens).2.2).1
    rw [h1, hs.1]
    simpa using hf
  rw [ccwBump_id _ hminf hhintf]
  have hfw := (ccwFinalize_conf (ccwStep { cl with width := 0 } 0 0 cl.lens).1
    (ccwStep { cl with width := 0 } 0 0 cl.lens).2.1
    (ccwStep { cl with width := 0 } 0 0 cl.lens).2.2).2.2.2.2.2.2.2.2.2.2.2.2.1
  rw [hfw, hwd]
  simp [suppMax]

theorem ccwStep_hint (ls : List (Option Nat)) (cl : Column) (s c : Nat) :
    (ccwStep cl s c ls).1.width_hint = cl.width_hint := (ccwStep_conf ls cl s c).1

theorem ccwStep_tree (ls : List (Option Nat)) (cl : Column) (s c : Nat) :
    (ccwStep cl s c ls).1.tree = cl.tree := (ccwStep_conf ls cl s c).2.2.2.1

theorem ccwStep_noextremes (ls : List (Option Nat)) (cl : Column) (s c : Nat) :
    (ccwStep cl s c ls).1.noextremes = cl.noextremes := (ccwStep_conf ls cl s c).2.2.2.2.1

theorem ccwStep_strict (ls : List (Option Nat)) (cl : Column) (s c : Nat) :
    (ccwStep cl s c ls).1.strict = cl.strict := (ccwStep_conf ls cl s c).2.2.2.2.2.1

theorem ccwStep_headerLen (ls : List (Option Nat)) (cl : Column) (s c : Nat) :
    (ccwStep cl s c ls).1.headerLen = cl.headerLen :=
  (ccwStep_conf ls cl s c).2.2.2.2.2.2.2.2.2.2.1

theorem ccwStep_lens (ls : List (Option Nat)) (cl : Column) (s c : Nat) :
    (ccwStep cl s c ls).1.lens = cl.lens := (ccwStep_conf ls cl s c).2.2.2.2.2.2.2.2.2.2.2.1

theorem ccwStep_width_min (ls : List (Option Nat)) (cl : Column) (s c : Nat) :
    (ccwStep cl s c ls).1.width_min = cl.width_min :=
  (ccwStep_conf ls cl s c).2.2.2.2.2.2.2.2.2.2.2.2.1

theorem ccwStep_avg (ls : List (Option Nat)) (cl : Column) (s c : Nat) :
    (ccwStep cl s c ls).1.width_avg = cl.width_avg :=
  (ccwStep_conf ls cl s c).2.2.2.2.2.2.2.2.2.2.2.2.2.1

theorem ccwStep_ext (ls : List (Option Nat)) (cl : Column) (s c : Nat) :
    (ccwStep cl s c ls).1.is_extreme = cl.is_extreme :=
  (ccwStep_conf ls cl s c).2.2.2.2.2.2.2.2.2.2.2.2.2.2

theorem ccwFinalize_hint (cl : Column) (s c : Nat) :
    (ccwFinalize cl s c).width_hint = cl.width_hint := (ccwFinalize_conf cl s c).1

theorem ccwFinalize_tree (cl : Column) (s c : Nat) :
    (ccwFinalize cl s c).tree = cl.tree := (ccwFinalize_conf cl s c).2.2.2.1

theorem ccwFinalize_strict (cl : Column) (s c : Nat) :
    (ccwFinalize cl s c).strict = cl.strict := (ccwFinalize_conf cl s c).2.2.2.2.2.1

theorem ccwFinalize_headerLen (cl : Column) (s c : Nat) :
    (ccwFinalize cl s c).headerLen = cl.headerLen :=
  (ccwFinalize_conf cl s c).2.2.2.2.2.2.2.2.2.2.1

theorem ccwFinalize_lens (cl : Column) (s c : Nat) :
    (ccwFinalize cl s c).lens = cl.lens := (ccwFinalize_conf cl s c).2.2.2.2.2.2.2.2.2.2.2.1

theorem ccwFinalize_wd (cl : Column) (s c : Nat) :
    (ccwFinalize cl s c).width = cl.width := (ccwFinalize_conf cl s c).2.2.2.2.2.2.2.2.2.2.2.2.1

theorem ccwFinalize_wmax (cl : Column) (s c : Nat) :
    (ccwFinalize cl s c).width_max = cl.width_max :=
  (ccwFinalize_conf cl s c).2.2.2.2.2.2.2.2.2.2.2.2.2

theorem ccwBump_hint (cl : Column) : (ccwBump cl).width_hint = cl.width_hint :=
  (ccwBump_conf cl).1

theorem ccwBump_tree (cl : Column) : (ccwBump cl).tree = cl.tree := (ccwBump_conf cl).2.2.2.1

theorem ccwBump_strict (cl : Column) : (ccwBump cl).strict = cl.strict :=
  (ccwBump_conf cl).2.2.2.2.2.1

theorem ccwBump_headerLen (cl : Column) : (ccwBump cl).headerLen = cl.headerLen :=
  (ccwBump_conf cl).2.2.2.2.2.2.2.2.2.2.1

theorem ccwBump_lens (cl : Column) : (ccwBump cl).lens = cl.lens :=
  (ccwBump_conf cl).2.2.2.2.2.2.2.2.2.2.2.1

theorem ccwBump_width_min (cl : Column) : (ccwBump cl).width_min = cl.width_min :=
  (ccwBump_conf cl).2.2.2.2.2.2.2.2.2.2.2.2.1

theorem ccwBump_wmax (cl : Column) : (ccwBump cl).width_max = cl.width_max :=
  (ccwBump_conf cl).2.2.2.2.2.2.2.2.2.2.2.2.2.1

theorem ccwBump_avg (cl : Column) : (ccwBump cl).width_avg = cl.width_avg :=
  (ccwBump_conf cl).2.2.2.2.2.2.2.2.2.2.2.2.2.2.1

theorem ccwBump_ext (cl : Column) : (ccwBump cl).is_extreme = cl.is_extreme :=
  (ccwBump_conf cl).2.2.2.2.2.2.2.2.2.2.2.2.2.2.2

theorem ccw_hint (cl : Column) : (count_column_width cl).width_hint = cl.width_hint :=
  (ccw_conf cl).1

theorem ccw_tree (cl : Column) : (count_column_width cl).tree = cl.tree :=
  (ccw_conf cl).2.2.2.1

theorem ccw_noextremes (cl : Column) : (count_column_width cl).noextremes = cl.noextremes :=
  (ccw_conf cl).2.2.2.2.1

theorem ccw_strict (cl : Column) : (count_column_width cl).strict = cl.strict :=
  (ccw_conf cl).2.2.2.2.2.1

theorem ccw_headerLen (cl : Column) : (count_column_width cl).headerLen = cl.headerLen :=
  (ccw_conf cl).2.2.2.2.2.2.2.2.2.2.1

theorem ccw_lens (cl : Column) : (count_column_width cl).lens = cl.lens :=
  (ccw_conf cl).2.2.2.2.2.2.2.2.2.2.2

/-- Claim C6: for a no-extremes column measured for the first time
(`width_avg` still `0`, flag clear), `count_column_width` sets `width_avg`
to the integer quotient of the observed widths' sum by their count, sets
`is_extreme` exactly when `width_max` exceeds twice the average, assigns
the width as the largest observed width, and a subsequent call assigns the
largest observed width among the rows not exceeding twice the average
(i.e. it skips every wider row).  The header-less/fractional-hint
hypotheses keep the enlargement rules of lines 363-371 out of play, as in
the specification's `{3, 3, 3, 3, 30}` scenario. -/
theorem noextremes_measure (cl : Column)
    (hne : cl.noextremes = true) (ha : cl.width_avg = 0) (he : cl.is_extreme = false)
    (hnn : cl.lens ≠ []) (hh : cl.headerLen = none) (hm : cl.width_min = 0)
    (hf : cl.width_hint < 1) :
    (count_column_width cl).width_avg = sumLens cl / cl.lens.length ∧
    ((count_column_width cl).is_extreme = true ↔
      (count_column_width cl).width_max > (count_column_width cl).width_avg * 2) ∧
    (count_column_width cl).width = maxL cl.lens ∧
    (count_column_width (count_column_width cl)).width = suppMax (count_column_width cl) := by
  have hs := ccwStep_conf cl.lens { cl with width := 0 } 0 0
  obtain ⟨hcnt, hsum⟩ := ccwStep_noext cl.lens { cl with width := 0 } 0 0
    (by simpa using he) (by simpa using hne)
  have hc0 : (ccwStep { cl with width := 0 } 0 0 cl.lens).2.2 ≠ 0 := by
    rw [hcnt]
    simpa using hnn
  have ha0 : (ccwStep { cl with width := 0 } 0 0 cl.lens).1.width_avg = 0 :=
    hs.2.2.2.2.2.2.2.2.2.2.2.2.2.1.trans (by simpa using ha)
  obtain ⟨havg, hext⟩ := ccwFinalize_fresh (ccwStep { cl with width := 0 } 0 0 cl.lens).1
    (ccwStep { cl with width := 0 } 0 0 cl.lens).2.1
    (ccwStep { cl with width := 0 } 0 0 cl.lens).2.2 hc0 ha0
  have hbc := ccwBump_conf (ccwFinalize (ccwStep { cl with width := 0 } 0 0 cl.lens).1
    (ccwStep { cl with width := 0 } 0 0 cl.lens).2.1
    (ccwStep { cl with width := 0 } 0 0 cl.lens).2.2)
  have hfc := ccwFinalize_conf (ccwStep { cl with width := 0 } 0 0 cl.lens).1
    (ccwStep { cl with width := 0 } 0 0 cl.lens).2.1
    (ccwStep { cl with width := 0 } 0 0 cl.lens).2.2
  have hq : (count_column_width cl).width_avg = sumLens cl / cl.lens.length := by
    rw [ccw_decomp, hbc.2.2.2.2.2.2.2.2.2.2.2.2.2.2.1, havg, hsum, hcnt]
    simp [sumLens, obsLens]
  refine ⟨hq, ?_, ?_, ?_⟩
  · have hmx : (count_column_width cl).width_max =
        (ccwStep { cl with width := 0 } 0 0 cl.lens).1.width_max := by
      rw [ccw_decomp, hbc.2.2.2.2.2.2.2.2.2.2.2.2.2.1, hfc.2.2.2.2.2.2.2.2.2.2.2.2.2]
    have hex : (count_column_width cl).is_extreme =
        (if (ccwStep { cl with width := 0 } 0 0 cl.lens).1.width_max >
            ((ccwStep { cl with width := 0 } 0 0 cl.lens).2.1 /
              (ccwStep { cl with width := 0 } 0 0 cl.lens).2.2) * 2 then true
         else (ccwStep { cl with width := 0 } 0 0 cl.lens).1.is_extreme) := by
      rw [ccw_decomp, hbc.2.2.2.2.2.2.2.2.2.2.2.2.2.2.2, hext]
    have hee : (ccwStep { cl with width := 0 } 0 0 cl.lens).1.is_extreme = false :=
      hs.2.2.2.2.2.2.2.2.2.2.2.2.2.2.trans (by simpa using he)
    have hq2 : (count_column_width cl).width_avg =
        (ccwStep { cl with width := 0 } 0 0 cl.lens).2.1 /
          (ccwStep { cl with width := 0 } 0 0 cl.lens).2.2 := by
      rw [ccw_decomp, hbc.2.2.2.2.2.2.2.2.2.2.2.2.2.2.1, havg]
    rw [hmx, hex, hee, hq2]
    split_ifs with hcond <;> simp_all
  · have h3 : (count_column_width cl).width = suppMax cl := ccw_width_nobump cl hh hm hf
    rw [h3, suppMax, he, ha, filtMax_false]
  · have hhl : (count_column_width cl).headerLen = none :=
      (ccw_conf cl).2.2.2.2.2.2.2.2.2.2.1.trans hh
    have hmn : (count_column_width cl).width_min = 0 := by
      rw [ccw_decomp, hbc.2.2.2.2.2.2.2.2.2.2.2.2.1]
      rw [ccwFinalize_min_none]
      · exact hs.2.2.2.2.2.2.2.2.2.2.2.2.1.trans (by simp [hm])
      · exact hs.2.2.2.2.2.2.2.2.2.2.1.trans (by simp [hh])
    have hft : (count_column_width cl).width_hint < 1 := by
      rw [(ccw_conf cl).1]
      exact hf
    exact ccw_width_nobump (count_column_width cl) hhl hmn hft

/-- Witness for `noextremes_measure`: the `{3, 3, 3, 3, 30}` column of the
specification, with first-pass width `30`, average `8`, extreme flag set,
and re-measured width `3`. -/
theorem noextremes_measure_witness :
    ((count_column_width exC6).width_avg = sumLens exC6 / exC6.lens.length ∧
     ((count_column_width exC6).is_extreme = true ↔
       (count_column_width exC6).width_max > (count_column_width exC6).width_avg * 2) ∧
     (count_column_width exC6).width = maxL exC6.lens ∧
     (count_column_width (count_column_width exC6)).width =
       suppMax (count_column_width exC6)) ∧
    (count_column_width exC6).width = 30 ∧
    (count_column_width exC6).width_avg = 8 ∧
    (count_column_width exC6).is_extreme = true ∧
    (count_column_width (count_column_width exC6)).width = 3 :=
  ⟨noextremes_measure exC6 rfl rfl rfl (by decide) rfl rfl (by decide),
   by decide, by decide, by decide, by decide⟩

/-- Claim C3 (code bug): the spec demands `width ≥ width_min` for every
non-strict column after `solve()`, but on `exT3` (terminal width 20) the
enlargement phase computes `add = width_max - width` for an extreme column
whose width is header-dominated (`width = width_min = 10 > width_max = 9`);
the `size_t` subtraction wraps and drives the column's width down to `9`,
below its minimal width `10`, although the column is not strict.  The
enclosing code comments say this loop enlarges columns. -/
theorem recount_widths_min_floor_bug :
    (recount_widths 100 exT3).map
        (fun r => r.1.map (fun c => (c.width, c.width_min, c.strict)))
      = some [(9, 10, false), (10, 1, false)] := by decide

/-- Claim C5 (code bug): running `solve()` twice on `exT5` (terminal width
21, no structural change in between) does not reproduce the widths: the
first run ends with widths `[10, 10]`, the second with `[9, 11]`, because
the second run's enlargement phase hits the `size_t` underflow on the
header-dominated extreme column (see `recount_widths_min_floor_bug`) and
then spills the freed space into the last column. -/
theorem recount_widths_twice_bug :
    (recount_widths 100 exT5).map (fun r => r.1.map Column.width) = some [10, 10] ∧
    ((recount_widths 100 exT5).bind
        (fun r => recount_widths 100 { exT5 with cols := r.1 })).map
        (fun r => r.1.map Column.width)
      = some [9, 11] := by decide

/-- Claim C4 (counterexample): the claim states that no phase of the layout
reduces a tree column below the width `count_column_width` computes for it.
On `exT4` the tree column `exA4` measures to width `9`, but the
extremes-reduction phase re-measures it with extreme rows suppressed
(width `1`) and the enlargement phase only grows it back to `4`, so the
solver ends with the tree column at `4 < 9`. -/
theorem tree_natural_width_cex :
    exA4.tree = true ∧ (count_column_width exA4).width = 9 ∧
    (recount_widths 100 exT4).map (fun r => r.1.map Column.width) = some [4, 15] := by
  decide

/-- Claim C2 (counterexample): the claim states that a column with an
absolute hint (`width_hint > 1`) is skipped only in the truncate-only pass
and is otherwise eligible to be decremented subject only to the tree,
`width_min` and fractional-floor rules.  `exC2` satisfies every one of those
exemptions (`width_hint = 5 > 1`, not a tree column, `width = 5 ≠ 1 =
width_min`, positive width, hint not fractional), the pass is the
unrestricted one (`truncOnly = false`), yet `shrinkStep` leaves it
untouched: the skip at source line 482 applies to both passes whenever the
`trunc` flag is absent. -/
theorem shrink_absolute_hint_cex :
    exC2.width_hint > 1 ∧ exC2.tree = false ∧ exC2.width ≠ exC2.width_min ∧
    0 < exC2.width ∧ ¬ exC2.width_hint < 1 ∧
    shrinkStep 3 false exC2 7 = (exC2, 7) := by decide

/-- Claim C2 (amended): in the shrink loop, a column with an absolute hint
(`width_hint > 1`) is decremented exactly when it carries the `trunc` flag,
is not the tree column, is not at its minimal width, the current pass is
the unrestricted one and both its width and the running width are positive;
in particular an absolute-hint column without the `trunc` flag is skipped
in both passes (source line 482), not only in the truncate-only pass. -/
theorem shrinkStep_absolute_hint (tw : Nat) (truncOnly : Bool) (cl : Column) (w : Nat)
    (h : cl.width_hint > 1) :
    (shrinkStep tw truncOnly cl w).1.width ≠ cl.width ↔
      (cl.trunc = true ∧ cl.tree = false ∧ cl.width ≠ cl.width_min ∧
       truncOnly = false ∧ 0 < cl.width ∧ 0 < w) := by
  have h1 : ¬ cl.width_hint < 1 := by
    intro hc
    exact absurd (hc.trans h) (lt_irrefl _)
  unfold shrinkStep
  split_ifs with h2 h3 h4 h5 h6 h7 h8 h9 h10 h11 h12 h13 <;>
    simp_all <;> (try split_ifs with h14 <;> simp_all) <;>
    first
      | omega
      | (intro h15 h16
         rcases Nat.eq_zero_or_pos w with rfl | hw
         · rfl
         · exact absurd (h14 h16 hw) (by simp [h15]))

/-- Witness for `shrinkStep_absolute_hint`: the absolute-hint `trunc`
column `exC2t` is decremented by the unrestricted pass. -/
theorem shrinkStep_absolute_hint_witness :
    (shrinkStep 3 false exC2t 7).1.width ≠ exC2t.width :=
  (shrinkStep_absolute_hint 3 false exC2t 7 (by decide)).mpr
    ⟨rfl, rfl, by decide, rfl, by decide, by decide⟩


theorem filtMax_le_maxL (e : Bool) (a : Nat) : ∀ ls : List (Option Nat),
    filtMax e a ls ≤ maxL ls := by
  intro ls
  induction ls with
  | nil => simp [filtMax, maxL]
  | cons l ls ih => rw [filtMax_cons, maxL_cons]; split_ifs <;> omega

theorem hintNat_congr (a b : Column) (h : a.width_hint = b.width_hint) :
    hintNat a = hintNat b := by
  simp [hintNat, h]

/-- The enlargement rules are monotone in the assigned width when the
minimal width, hint and strictness agree. -/
theorem ccwBump_width_mono (a b : Column) (hmin : a.width_min = b.width_min)
    (hhint : a.width_hint = b.width_hint) (hstrict : a.strict = b.strict)
    (hw : a.width ≤ b.width) : (ccwBump a).width ≤ (ccwBump b).width := by
  have hn := hintNat_congr a b hhint
  unfold ccwBump
  split_ifs <;> simp_all <;> omega

/-- Two columns agreeing on every field are equal. -/
theorem columnExt (a b : Column)
    (h1 : a.width_hint = b.width_hint) (h2 : a.trunc = b.trunc)
    (h3 : a.right = b.right) (h4 : a.tree = b.tree)
    (h5 : a.noextremes = b.noextremes) (h6 : a.strict = b.strict)
    (h7 : a.seqnum = b.seqnum) (h8 : a.header = b.header)
    (h9 : a.headerColor = b.headerColor) (h10 : a.color = b.color)
    (h11 : a.headerLen = b.headerLen) (h12 : a.lens = b.lens)
    (h13 : a.width = b.width) (h14 : a.width_min = b.width_min)
    (h15 : a.width_max = b.width_max) (h16 : a.width_avg = b.width_avg)
    (h17 : a.is_extreme = b.is_extreme) : a = b := by
  cases a; cases b; simp_all

/-- The sum and count accumulated by the row loop: every admitted row of a
no-extremes column contributes. -/
theorem ccwStep_sc (ls : List (Option Nat)) : ∀ (cl : Column) (s c : Nat),
    (ccwStep cl s c ls).2.1 =
      s + (if cl.noextremes = true then
        ((ls.map (fun l => l.getD 0)).filter
          (fun n => !(cl.is_extreme && decide (n > cl.width_avg * 2)))).sum else 0) ∧
    (ccwStep cl s c ls).2.2 =
      c + (if cl.noextremes = true then
        ((ls.map (fun l => l.getD 0)).filter
          (fun n => !(cl.is_extreme && decide (n > cl.width_avg * 2)))).length else 0) := by
  induction ls with
  | nil => intro cl s c; simp [ccwStep]
  | cons l ls ih =>
    intro cl s c
    by_cases hskip : cl.is_extreme = true ∧ l.getD 0 > cl.width_avg * 2
    · have hpred : (!(cl.is_extreme && decide (l.getD 0 > cl.width_avg * 2))) = false := by
        simp [hskip.1, hskip.2]
      simp only [ccwStep, List.map_cons, List.filter_cons, hpred]
      split_ifs <;> simp_all [ih]
    · have hpred : (!(cl.is_extreme && decide (l.getD 0 > cl.width_avg * 2))) = true := by
        rcases h : cl.is_extreme with _ | _
        · simp
        · simp only [h, Bool.true_and, Bool.not_eq_true', decide_eq_false_iff_not]
          intro hb
          exact hskip ⟨h, hb⟩
      simp only [ccwStep, List.map_cons, List.filter_cons, hpred]
      split_ifs <;> simp_all [ih] <;> omega

/-- The row loop in one equation: it assigns the admitted maximum to
`width`, records the overall maximum in `width_max` and changes nothing
else. -/
theorem ccwStep_eq (ls : List (Option Nat)) (cl : Column) (s c : Nat) :
    (ccwStep cl s c ls).1 =
      { cl with width := max cl.width (filtMax cl.is_extreme cl.width_avg ls),
                width_max := max cl.width_max (maxL ls) } := by
  have hc := ccwStep_conf ls cl s c
  apply columnExt <;>
    simp_all [ccwStep_width, ccwStep_wmax]

/-- `count_column_width` in one equation, in terms of the input column. -/
theorem ccw_val (cl : Column) :
    count_column_width cl =
      ccwBump (ccwFinalize
        { cl with width := suppMax cl, width_max := max cl.width_max (maxL cl.lens) }
        (if cl.noextremes = true then (keptLens cl).sum else 0)
        (if cl.noextremes = true then (keptLens cl).length else 0)) := by
  rw [ccw_decomp]
  have h1 := ccwStep_eq cl.lens { cl with width := 0 } 0 0
  obtain ⟨h2, h3⟩ := ccwStep_sc cl.lens { cl with width := 0 } 0 0
  rw [h1, h2, h3]
  simp [suppMax, keptLens, obsLens]

/-- In an extreme state with zero average only zero-width rows are kept. -/
theorem keptLens_sum_zero (cl : Column) (he : cl.is_extreme = true) (ha : cl.width_avg = 0) :
    (keptLens cl).sum = 0 := by
  apply List.sum_eq_zero
  intro x hx
  rw [keptLens, List.mem_filter] at hx
  have h2 := hx.2
  simp [he, ha] at h2
  omega

/-- The minimal width after a measurement: the header width when the header
has data, the previous minimum otherwise. -/
theorem ccw_min_val (cl : Column) :
    (count_column_width cl).width_min =
      (match cl.headerLen with | some h => h | none => cl.width_min) := by
  rw [ccw_val, ccwBump_width_min]
  rcases h : cl.headerLen with _ | hh
  · rw [ccwFinalize_min_none _ _ _ (by simp [h])]
  · rw [ccwFinalize_min_some _ _ _ hh (by simp [h])]

/-- A measurement either leaves the measurement state `(is_extreme,
width_avg)` unchanged, or the column entered it unflagged with a zero
average. -/
theorem ccw_state (cl : Column) :
    ((count_column_width cl).is_extreme = cl.is_extreme ∧
     (count_column_width cl).width_avg = cl.width_avg) ∨
    (cl.is_extreme = false ∧ cl.width_avg = 0) := by
  by_cases hf : (if cl.noextremes = true then (keptLens cl).length else 0) ≠ 0 ∧
      ({ cl with width := suppMax cl,
                 width_max := max cl.width_max (maxL cl.lens) } : Column).width_avg = 0
  · have ha : cl.width_avg = 0 := by simpa using hf.2
    rcases he : cl.is_extreme with _ | _
    · right; exact ⟨rfl, ha⟩
    · left
      obtain ⟨havg, hext⟩ := ccwFinalize_fresh
        { cl with width := suppMax cl, width_max := max cl.width_max (maxL cl.lens) }
        (if cl.noextremes = true then (keptLens cl).sum else 0)
        (if cl.noextremes = true then (keptLens cl).length else 0) hf.1 hf.2
      have hs0 : (if cl.noextremes = true then (keptLens cl).sum else 0) = 0 := by
        rw [keptLens_sum_zero cl he ha]
        split_ifs <;> rfl
      rw [ccw_val]
      constructor
      · rw [ccwBump_ext, hext, hs0]
        simp only [Nat.zero_div, Nat.zero_mul]
        split_ifs <;> simp [he]
      · rw [ccwBump_avg, havg, hs0, ha]
        simp
  · left
    have hst := ccwFinalize_stable
      { cl with width := suppMax cl, width_max := max cl.width_max (maxL cl.lens) }
      (if cl.noextremes = true then (keptLens cl).sum else 0)
      (if cl.noextremes = true then (keptLens cl).length else 0)
      (by
        rcases Decidable.not_and_iff_or_not.mp hf with h | h
        · exact Or.inl (by simpa using h)
        · exact Or.inr (by simpa using h))
    rw [ccw_val, ccwBump_ext, ccwBump_avg, hst.1, hst.2]
    simp

/-- Re-measurement never admits a larger suppressed maximum. -/
theorem suppMax_ccw_le (cl : Column) : suppMax (count_column_width cl) ≤ suppMax cl := by
  rcases ccw_state cl with ⟨he, ha⟩ | ⟨he, ha⟩
  · rw [suppMax, he, ha, ccw_lens]
    exact le_refl _
  · rw [suppMax, ccw_lens]
    calc filtMax (count_column_width cl).is_extreme
          (count_column_width cl).width_avg cl.lens
        ≤ maxL cl.lens := filtMax_le_maxL _ _ _
      _ = filtMax cl.is_extreme cl.width_avg cl.lens := by rw [he, filtMax_false]

/-- Re-measuring a measured column cannot increase its width: the second
pass filters with a state at least as restrictive as what produced the
first pass's width. -/
theorem ccw_remeasure_le (cl : Column) :
    (count_column_width (count_column_width cl)).width ≤ (count_column_width cl).width := by
  conv_lhs => rw [ccw_val (count_column_width cl)]
  conv_rhs => rw [ccw_val cl]
  apply ccwBump_width_mono
  · -- equal minimal widths
    rcases h : cl.headerLen with _ | hh
    · rw [ccwFinalize_min_none _ _ _ (by simp [ccw_headerLen, h]),
        ccwFinalize_min_none _ _ _ (by simp [h])]
      have := ccw_min_val cl
      rw [h] at this
      simpa using this
    · rw [ccwFinalize_min_some _ _ _ hh (by simp [ccw_headerLen, h]),
        ccwFinalize_min_some _ _ _ hh (by simp [h])]
  · rw [ccwFinalize_hint, ccwFinalize_hint]
    simpa using ccw_hint cl
  · rw [ccwFinalize_strict, ccwFinalize_strict]
    simpa using ccw_strict cl
  · rw [ccwFinalize_wd, ccwFinalize_wd]
    simpa using suppMax_ccw_le cl

/-- The seeding phase: its running width is exactly the achieved output
width of the measured columns, and every output column is the measurement
of its input column. -/
theorem measureAll_spec : ∀ cols : List Column,
    (measureAll cols).2.1 = totalw (measureAll cols).1 ∧
    (measureAll cols).1.length = cols.length ∧
    List.Forall₂ (fun a b => b = count_column_width a) cols (measureAll cols).1 := by
  intro cols
  induction cols with
  | nil => simp [measureAll, totalw, sumw]
  | cons cl cls ih =>
    cases cls with
    | nil => simp [measureAll, totalw, sumw]
    | cons c2 cs2 =>
      obtain ⟨ih1, ih2, ih3⟩ := ih
      have hdef : measureAll (cl :: c2 :: cs2) =
          (count_column_width cl :: (measureAll (c2 :: cs2)).1,
           (count_column_width cl).width + 1 + (measureAll (c2 :: cs2)).2.1,
           (if (count_column_width cl).is_extreme then 1 else 0) +
             (measureAll (c2 :: cs2)).2.2) := rfl
      rw [hdef]
      refine ⟨?_, by simpa using ih2, List.Forall₂.cons rfl ih3⟩
      have hlen : (measureAll (c2 :: cs2)).1.length = cs2.length + 1 := by
        simpa using ih2
      rw [ih1]
      simp only [totalw, sumw, List.map_cons, List.sum_cons, List.length_cons, hlen]
      omega

theorem sumw_nil : sumw [] = 0 := rfl

theorem sumw_cons (c : Column) (l : List Column) : sumw (c :: l) = c.width + sumw l := by
  simp [sumw]

/-- The extremes-reduction phase: the running width keeps tracking the
achieved output width, never dropping below the sum of the column widths,
and every column is either untouched or freshly re-measured. -/
theorem reduceExtremes_spec : ∀ (cols : List Column) (w : Nat) (e : Int),
    (∀ cl ∈ cols, (count_column_width cl).width ≤ cl.width) → sumw cols ≤ w →
    (reduceExtremes cols w e).2.1 + sumw cols = w + sumw (reduceExtremes cols w e).1 ∧
    sumw (reduceExtremes cols w e).1 ≤ (reduceExtremes cols w e).2.1 ∧
    (reduceExtremes cols w e).1.length = cols.length ∧
    List.Forall₂ (fun a b => b = a ∨ b = count_column_width a) cols
      (reduceExtremes cols w e).1 := by
  intro cols
  induction cols with
  | nil => intro w e _ _; simp [reduceExtremes, sumw]
  | cons cl cls ih =>
    intro w e hm hsum
    rw [sumw_cons] at hsum
    have hmtail : ∀ c ∈ cls, (count_column_width c).width ≤ c.width :=
      fun c hc => hm c (List.mem_cons_of_mem _ hc)
    have hmhead : (count_column_width cl).width ≤ cl.width := hm cl (List.mem_cons_self _ _)
    by_cases hx : cl.is_extreme = true
    · by_cases hred : cl.width > (count_column_width cl).width
      · have hdef : reduceExtremes (cl :: cls) w e =
            (count_column_width cl ::
              (reduceExtremes cls (w - (cl.width - (count_column_width cl).width)) e).1,
             (reduceExtremes cls (w - (cl.width - (count_column_width cl).width)) e).2.1,
             (reduceExtremes cls (w - (cl.width - (count_column_width cl).width)) e).2.2) := by
          simp [reduceExtremes, hx, hred]
        obtain ⟨i1, i2, i3, i4⟩ := ih (w - (cl.width - (count_column_width cl).width)) e
          hmtail (by omega)
        rw [hdef]
        dsimp only
        refine ⟨?_, ?_, by simpa using i3, List.Forall₂.cons (Or.inr rfl) i4⟩
        · rw [sumw_cons, sumw_cons]
          omega
        · rw [sumw_cons]
          omega
      · have heq : (count_column_width cl).width = cl.width := by omega
        have hdef : reduceExtremes (cl :: cls) w e =
            (count_column_width cl :: (reduceExtremes cls w (e - 1)).1,
             (reduceExtremes cls w (e - 1)).2.1,
             (reduceExtremes cls w (e - 1)).2.2) := by
          simp [reduceExtremes, hx, hred]
        obtain ⟨i1, i2, i3, i4⟩ := ih w (e - 1) hmtail (by omega)
        rw [hdef]
        dsimp only
        refine ⟨?_, ?_, by simpa using i3, List.Forall₂.cons (Or.inr rfl) i4⟩
        · rw [sumw_cons, sumw_cons, heq]
          omega
        · rw [sumw_cons, heq]
          omega
    · have hdef : reduceExtremes (cl :: cls) w e =
          (cl :: (reduceExtremes cls w e).1,
           (reduceExtremes cls w e).2.1, (reduceExtremes cls w e).2.2) := by
        simp [reduceExtremes, hx]
      obtain ⟨i1, i2, i3, i4⟩ := ih w e hmtail (by omega)
      rw [hdef]
      dsimp only
      refine ⟨?_, ?_, by simpa using i3, List.Forall₂.cons (Or.inl rfl) i4⟩
      · rw [sumw_cons, sumw_cons]
        omega
      · rw [sumw_cons]
        omega

/-- The reflexive instance of the relation preserved by the growth
phases. -/
theorem confSame_refl (a : Column) :
    confSame a a ∧ (a.width ≤ a.width ∨ a.width_max ≤ a.width) :=
  ⟨⟨rfl, rfl, rfl, rfl, rfl⟩, Or.inl le_rfl⟩

/-- The extreme-absorption phase: the running width keeps tracking the
achieved width, never exceeds the terminal width (the `size_t` wrap of
`width_max - width` can only shrink it), and each column either grows or
is clamped to its `width_max`. -/
theorem absorb_spec (tw : Nat) (htw : tw < SZ) : ∀ (cols : List Column) (w : Nat),
    sumw cols ≤ w → w < tw →
    (absorb tw cols w).2 + sumw cols = w + sumw (absorb tw cols w).1 ∧
    sumw (absorb tw cols w).1 ≤ (absorb tw cols w).2 ∧
    (absorb tw cols w).2 ≤ tw ∧
    (absorb tw cols w).1.length = cols.length ∧
    List.Forall₂ (fun a b => confSame a b ∧ (a.width ≤ b.width ∨ a.width_max ≤ b.width))
      cols (absorb tw cols w).1 := by
  have hSZ : SZ = 18446744073709551616 := by norm_num [SZ]
  rw [hSZ] at htw
  intro cols
  induction cols with
  | nil =>
    intro w h1 h2
    refine ⟨rfl, ?_, ?_, rfl, List.Forall₂.nil⟩
    · show sumw [] ≤ w
      rw [sumw_nil]
      omega
    · show w ≤ tw
      omega
  | cons cl cls ih =>
    intro w hsum hw
    rw [sumw_cons] at hsum
    by_cases hx : cl.is_extreme = true
    · by_cases hcap : ¬ tw - w = 0 ∧ cl.width_max < cl.width + (tw - w)
      · -- the capped (possibly wrapping) branch
        have ha : absorbAdd tw cl w = (SZ + cl.width_max - cl.width) % SZ := by
          unfold absorbAdd
          rw [if_pos hcap]
        have hwv : (cl.width + absorbAdd tw cl w) % SZ = cl.width_max := by
          rw [ha, hSZ]
          omega
        have hval : (w + absorbAdd tw cl w) % SZ = w + cl.width_max - cl.width := by
          rw [ha, hSZ]
          omega
        have hlt : w + cl.width_max - cl.width < tw := by omega
        have hne : ¬ (w + absorbAdd tw cl w) % SZ = tw := by
          rw [hval]
          omega
        have hdef : absorb tw (cl :: cls) w =
            ({ cl with width := (cl.width + absorbAdd tw cl w) % SZ } ::
              (absorb tw cls ((w + absorbAdd tw cl w) % SZ)).1,
             (absorb tw cls ((w + absorbAdd tw cl w) % SZ)).2) := by
          conv_lhs => simp only [absorb]
          rw [if_pos hx]
          try dsimp only
          rw [if_neg hne]
        obtain ⟨i1, i2, i3, i4, i5⟩ := ih (w + cl.width_max - cl.width) (by omega) hlt
        rw [hval] at hdef
        rw [hdef]
        dsimp only
        refine ⟨?_, ?_, i3, by simpa using i4,
          List.Forall₂.cons ⟨⟨rfl, rfl, rfl, rfl, rfl⟩,
            Or.inr (le_of_eq (by simpa using hwv.symm))⟩ i5⟩
        · rw [sumw_cons, sumw_cons]
          dsimp only
          rw [hwv]
          omega
        · rw [sumw_cons]
          dsimp only
          rw [hwv]
          omega
      · -- the uncapped branch always reaches the terminal width and stops
        have ha : absorbAdd tw cl w = tw - w := by
          unfold absorbAdd
          rw [if_neg hcap]
        have hwv : (cl.width + absorbAdd tw cl w) % SZ = cl.width + (tw - w) := by
          rw [ha, hSZ]
          omega
        have hval : (w + absorbAdd tw cl w) % SZ = tw := by
          rw [ha, hSZ]
          omega
        have hdef : absorb tw (cl :: cls) w =
            ({ cl with width := (cl.width + absorbAdd tw cl w) % SZ } :: cls,
             (w + absorbAdd tw cl w) % SZ) := by
          conv_lhs => simp only [absorb]
          rw [if_pos hx]
          try dsimp only
          rw [if_pos hval]
        rw [hdef, hval, hwv]
        dsimp only
        refine ⟨?_, ?_, le_refl tw, rfl,
          List.Forall₂.cons ⟨⟨rfl, rfl, rfl, rfl, rfl⟩,
              Or.inl (Nat.le_add_right cl.width (tw - w))⟩
            (List.forall₂_same.mpr (fun a _ => confSame_refl a))⟩
        · rw [sumw_cons, sumw_cons]
          dsimp only
          omega
        · rw [sumw_cons]
          dsimp only
          omega
    · have hdef : absorb tw (cl :: cls) w =
          (cl :: (absorb tw cls w).1, (absorb tw cls w).2) := by
        conv_lhs => simp only [absorb]
        rw [if_neg hx]
      obtain ⟨i1, i2, i3, i4, i5⟩ := ih w (by omega) hw
      rw [hdef]
      dsimp only
      refine ⟨by rw [sumw_cons, sumw_cons]; omega, by rw [sumw_cons]; omega, i3,
        by simpa using i4, List.Forall₂.cons (confSame_refl cl) i5⟩

theorem forall2_grow_trans : ∀ {l1 l2 l3 : List Column},
    List.Forall₂ (fun a b => confSame a b ∧ a.width ≤ b.width) l1 l2 →
    List.Forall₂ (fun a b => confSame a b ∧ a.width ≤ b.width) l2 l3 →
    List.Forall₂ (fun a b => confSame a b ∧ a.width ≤ b.width) l1 l3 := by
  intro l1 l2 l3 h12 h23
  induction h12 generalizing l3 with
  | nil => cases h23; exact List.Forall₂.nil
  | cons hab h12 ih =>
    cases h23 with
    | cons hbc h23 =>
      refine List.Forall₂.cons ⟨?_, le_trans hab.2 hbc.2⟩ (ih h23)
      obtain ⟨c1, c2, c3, c4, c5⟩ := hab.1
      obtain ⟨d1, d2, d3, d4, d5⟩ := hbc.1
      exact ⟨d1.trans c1, d2.trans c2, d3.trans c3, d4.trans c4, d5.trans c5⟩

theorem forall2_tree_trans : ∀ {l1 l2 l3 : List Column},
    List.Forall₂ (fun a b => confSame a b ∧ (a.tree = true → b = a)) l1 l2 →
    List.Forall₂ (fun a b => confSame a b ∧ (a.tree = true → b = a)) l2 l3 →
    List.Forall₂ (fun a b => confSame a b ∧ (a.tree = true → b = a)) l1 l3 := by
  intro l1 l2 l3 h12 h23
  induction h12 generalizing l3 with
  | nil => cases h23; exact List.Forall₂.nil
  | cons hab h12 ih =>
    cases h23 with
    | cons hbc h23 =>
      refine List.Forall₂.cons ⟨?_, ?_⟩ (ih h23)
      · obtain ⟨c1, c2, c3, c4, c5⟩ := hab.1
        obtain ⟨d1, d2, d3, d4, d5⟩ := hbc.1
        exact ⟨d1.trans c1, d2.trans c2, d3.trans c3, d4.trans c4, d5.trans c5⟩
      · intro ht
        have h1 := hab.2 ht
        have h2 := hbc.2 (by rw [h1]; exact ht)
        rw [h2, h1]

/-- One sweep of the max-out fill loop strictly grows the width without
overshooting the terminal width. -/
theorem fillSweep_spec (tw : Nat) : ∀ (cols : List Column) (w : Nat),
    cols ≠ [] → w < tw →
    w < (fillSweep tw cols w).2 ∧ (fillSweep tw cols w).2 ≤ tw ∧
    (fillSweep tw cols w).2 + sumw cols = w + sumw (fillSweep tw cols w).1 ∧
    (fillSweep tw cols w).1.length = cols.length ∧
    List.Forall₂ (fun a b => confSame a b ∧ a.width ≤ b.width) cols
      (fillSweep tw cols w).1 := by
  intro cols
  induction cols with
  | nil => intro w h _; exact absurd rfl h
  | cons cl cls ih =>
    intro w _ hw
    by_cases hb : w + 1 = tw
    · have hdef : fillSweep tw (cl :: cls) w =
          ({ cl with width := cl.width + 1 } :: cls, w + 1) := by
        conv_lhs => simp only [fillSweep]
        rw [if_pos hb]
      rw [hdef]
      dsimp only
      refine ⟨by omega, by omega, ?_, rfl,
        List.Forall₂.cons ⟨⟨rfl, rfl, rfl, rfl, rfl⟩, Nat.le_succ _⟩
          (List.forall₂_same.mpr (fun a _ => ⟨⟨rfl, rfl, rfl, rfl, rfl⟩, le_refl _⟩))⟩
      rw [sumw_cons, sumw_cons]
      dsimp only
      omega
    · have hdef : fillSweep tw (cl :: cls) w =
          ({ cl with width := cl.width + 1 } :: (fillSweep tw cls (w + 1)).1,
           (fillSweep tw cls (w + 1)).2) := by
        conv_lhs => simp only [fillSweep]
        rw [if_neg hb]
      rw [hdef]
      dsimp only
      cases cls with
      | nil =>
        simp only [fillSweep]
        refine ⟨by omega, by omega, ?_, rfl,
          List.Forall₂.cons ⟨⟨rfl, rfl, rfl, rfl, rfl⟩, Nat.le_succ _⟩ List.Forall₂.nil⟩
        simp only [sumw_cons, sumw_nil]
        try dsimp only
        omega
      | cons c2 cs2 =>
        obtain ⟨i1, i2, i3, i4, i5⟩ := ih (w + 1) (by simp) (by omega)
        refine ⟨by omega, i2, ?_, by simpa using i4,
          List.Forall₂.cons ⟨⟨rfl, rfl, rfl, rfl, rfl⟩, Nat.le_succ _⟩ i5⟩
        simp only [sumw_cons] at i3 ⊢
        try dsimp only
        omega

/-- With enough fuel, the max-out fill loop of a non-empty column list
terminates with the width exactly at the terminal width. -/
theorem fillLoop_spec (tw : Nat) : ∀ (fuel : Nat) (cols : List Column) (w : Nat),
    cols ≠ [] → w ≤ tw → tw - w ≤ fuel →
    ∃ cols', fillLoop tw fuel cols w = some (cols', tw) ∧
      tw + sumw cols = w + sumw cols' ∧ cols'.length = cols.length ∧
      List.Forall₂ (fun a b => confSame a b ∧ a.width ≤ b.width) cols cols' := by
  intro fuel
  induction fuel with
  | zero =>
    intro cols w hne hle hfuel
    have hw : w = tw := by omega
    refine ⟨cols, ?_, by omega, rfl,
      List.forall₂_same.mpr (fun a _ => ⟨⟨rfl, rfl, rfl, rfl, rfl⟩, le_refl _⟩)⟩
    simp only [fillLoop]
    rw [if_neg (by omega), hw]
  | succ f ih =>
    intro cols w hne hle hfuel
    by_cases hw : w < tw
    · have hdef : fillLoop tw (f + 1) cols w =
          fillLoop tw f (fillSweep tw cols w).1 (fillSweep tw cols w).2 := by
        conv_lhs => simp only [fillLoop]
        rw [if_pos hw]
      obtain ⟨s1, s2, s3, s4, s5⟩ := fillSweep_spec tw cols w hne hw
      obtain ⟨cols', e1, e2, e3, e4⟩ := ih (fillSweep tw cols w).1 (fillSweep tw cols w).2
        (by intro hc; rw [hc] at s4; simp at s4; exact hne (List.length_eq_zero.mp (by omega)))
        s2 (by omega)
      exact ⟨cols', by rw [hdef, e1], by omega, by rw [e3, s4],
        forall2_grow_trans s5 e4⟩
    · have hw2 : w = tw := by omega
      refine ⟨cols, ?_, by omega, rfl,
        List.forall₂_same.mpr (fun a _ => ⟨⟨rfl, rfl, rfl, rfl, rfl⟩, le_refl _⟩)⟩
      simp only [fillLoop]
      rw [if_neg (by omega), hw2]

/-- The last-column spill: it either leaves the width alone or raises it to
exactly the terminal width, growing only the last column. -/
theorem spillLast_spec (tw : Nat) : ∀ (cols : List Column) (w : Nat),
    (spillLast tw cols w).2 + sumw cols = w + sumw (spillLast tw cols w).1 ∧
    (spillLast tw cols w).1.length = cols.length ∧
    ((spillLast tw cols w).2 = w ∨ (spillLast tw cols w).2 = tw) ∧
    List.Forall₂ (fun a b => confSame a b ∧ a.width ≤ b.width) cols
      (spillLast tw cols w).1 := by
  intro cols
  induction cols with
  | nil =>
    intro w
    exact ⟨rfl, rfl, Or.inl rfl, List.Forall₂.nil⟩
  | cons cl cls ih =>
    intro w
    cases cls with
    | nil =>
      by_cases hc : cl.right = false ∧ 0 < tw - w
      · have hdef : spillLast tw [cl] w =
            ([{ cl with width := cl.width + (tw - w) }], tw) := by
          conv_lhs => simp only [spillLast]
          rw [if_pos hc]
        rw [hdef]
        dsimp only
        refine ⟨?_, rfl, Or.inr rfl,
          List.Forall₂.cons ⟨⟨rfl, rfl, rfl, rfl, rfl⟩, Nat.le_add_right _ _⟩
            List.Forall₂.nil⟩
        simp only [sumw_cons, sumw_nil]
        try dsimp only
        omega
      · have hdef : spillLast tw [cl] w = ([cl], w) := by
          conv_lhs => simp only [spillLast]
          rw [if_neg hc]
        rw [hdef]
        exact ⟨rfl, rfl, Or.inl rfl,
          List.Forall₂.cons ⟨⟨rfl, rfl, rfl, rfl, rfl⟩, le_refl _⟩ List.Forall₂.nil⟩
    | cons c2 cs2 =>
      have hdef : spillLast tw (cl :: c2 :: cs2) w =
          (cl :: (spillLast tw (c2 :: cs2) w).1, (spillLast tw (c2 :: cs2) w).2) := by
        conv_lhs => simp only [spillLast]
      obtain ⟨i1, i2, i3, i4⟩ := ih w
      rw [hdef]
      dsimp only
      refine ⟨?_, by simpa using i2, i3,
        List.Forall₂.cons ⟨⟨rfl, rfl, rfl, rfl, rfl⟩, le_refl _⟩ i4⟩
      simp only [sumw_cons] at i1 ⊢
      omega

/-- One column step of the shrink sweep: the width drops by at most one,
the running width tracks the column's width, the configuration survives,
and tree columns are untouched. -/
theorem shrinkStep_spec (tw : Nat) (truncOnly : Bool) (cl : Column) (w : Nat) :
    (shrinkStep tw truncOnly cl w).2 ≤ w ∧ w ≤ (shrinkStep tw truncOnly cl w).2 + 1 ∧
    (shrinkStep tw truncOnly cl w).2 + cl.width = w + (shrinkStep tw truncOnly cl w).1.width ∧
    confSame cl (shrinkStep tw truncOnly cl w).1 ∧
    (cl.tree = true → (shrinkStep tw truncOnly cl w).1 = cl) := by
  have fix : ∀ h : shrinkStep tw truncOnly cl w = (cl, w),
      (shrinkStep tw truncOnly cl w).2 ≤ w ∧ w ≤ (shrinkStep tw truncOnly cl w).2 + 1 ∧
      (shrinkStep tw truncOnly cl w).2 + cl.width =
        w + (shrinkStep tw truncOnly cl w).1.width ∧
      confSame cl (shrinkStep tw truncOnly cl w).1 ∧
      (cl.tree = true → (shrinkStep tw truncOnly cl w).1 = cl) := by
    intro h
    rw [h]
    exact ⟨le_refl _, by omega, rfl, ⟨rfl, rfl, rfl, rfl, rfl⟩, fun _ => rfl⟩
  by_cases h1 : cl.width_hint > 1 ∧ cl.trunc = false
  · exact fix (by simp only [shrinkStep]; rw [if_pos h1])
  · by_cases h2 : cl.tree = true
    · exact fix (by simp only [shrinkStep]; rw [if_neg h1, if_pos h2])
    · by_cases h3 : truncOnly = true ∧ cl.trunc = false
      · exact fix (by simp only [shrinkStep]; rw [if_neg h1, if_neg h2, if_pos h3])
      · by_cases h4 : cl.width = cl.width_min
        · exact fix (by simp only [shrinkStep]; rw [if_neg h1, if_neg h2, if_neg h3, if_pos h4])
        · by_cases h5 : cl.width_hint < 1 ∧ 0 < cl.width ∧ 0 < w ∧
              cl.width_hint * (tw : ℚ) < (cl.width : ℚ)
          · have h6 : ¬ (({ cl with width := cl.width - 1 } : Column).width_hint > 1 ∧
                0 < ({ cl with width := cl.width - 1 } : Column).width ∧
                0 < w - 1 ∧ truncOnly = false) := by
              intro hcon
              have : (1 : ℚ) < cl.width_hint := hcon.1
              exact absurd (h5.1.trans this) (lt_irrefl _)
            have hdef : shrinkStep tw truncOnly cl w =
                ({ cl with width := cl.width - 1 }, w - 1) := by
              simp only [shrinkStep]
              rw [if_neg h1, if_neg h2, if_neg h3, if_neg h4, if_pos h5]
              dsimp only
              rw [if_neg h6]
            rw [hdef]
            dsimp only
            obtain ⟨-, hw0, hv0, -⟩ := h5
            exact ⟨by omega, by omega, by omega, ⟨rfl, rfl, rfl, rfl, rfl⟩,
              fun ht => absurd ht h2⟩
          · by_cases h7 : cl.width_hint > 1 ∧ 0 < cl.width ∧ 0 < w ∧ truncOnly = false
            · have hdef : shrinkStep tw truncOnly cl w =
                  ({ cl with width := cl.width - 1 }, w - 1) := by
                simp only [shrinkStep]
                rw [if_neg h1, if_neg h2, if_neg h3, if_neg h4, if_neg h5]
                dsimp only
                rw [if_pos h7]
              rw [hdef]
              dsimp only
              obtain ⟨-, hw0, hv0, -⟩ := h7
              exact ⟨by omega, by omega, by omega, ⟨rfl, rfl, rfl, rfl, rfl⟩,
                fun ht => absurd ht h2⟩
            · exact fix (by
                simp only [shrinkStep]
                rw [if_neg h1, if_neg h2, if_neg h3, if_neg h4, if_neg h5]
                dsimp only
                rw [if_neg h7])

/-- One full shrink sweep: the width never drops below the terminal width,
keeps tracking the sum of widths, and leaves tree columns untouched. -/
theorem shrinkSweep_spec (tw : Nat) (truncOnly : Bool) : ∀ (cols : List Column) (w : Nat),
    tw ≤ w →
    (shrinkSweep tw truncOnly cols w).2 ≤ w ∧ tw ≤ (shrinkSweep tw truncOnly cols w).2 ∧
    (shrinkSweep tw truncOnly cols w).2 + sumw cols =
      w + sumw (shrinkSweep tw truncOnly cols w).1 ∧
    (shrinkSweep tw truncOnly cols w).1.length = cols.length ∧
    List.Forall₂ (fun a b => confSame a b ∧ (a.tree = true → b = a)) cols
      (shrinkSweep tw truncOnly cols w).1 := by
  intro cols
  induction cols with
  | nil =>
    intro w hw
    exact ⟨le_refl w, hw, rfl, rfl, List.Forall₂.nil⟩
  | cons cl cls ih =>
    intro w hw
    by_cases hb : w ≤ tw
    · have hdef : shrinkSweep tw truncOnly (cl :: cls) w = (cl :: cls, w) := by
        conv_lhs => simp only [shrinkSweep]
        rw [if_pos hb]
      rw [hdef]
      exact ⟨le_refl w, hw, rfl, rfl,
        List.forall₂_same.mpr (fun a _ => ⟨⟨rfl, rfl, rfl, rfl, rfl⟩, fun _ => rfl⟩)⟩
    · have hdef : shrinkSweep tw truncOnly (cl :: cls) w =
          ((shrinkStep tw truncOnly cl w).1 ::
            (shrinkSweep tw truncOnly cls (shrinkStep tw truncOnly cl w).2).1,
           (shrinkSweep tw truncOnly cls (shrinkStep tw truncOnly cl w).2).2) := by
        conv_lhs => simp only [shrinkSweep]
        rw [if_neg hb]
      obtain ⟨s1, s2, s3, s4, s5⟩ := shrinkStep_spec tw truncOnly cl w
      obtain ⟨i1, i2, i3, i4, i5⟩ := ih (shrinkStep tw truncOnly cl w).2 (by omega)
      rw [hdef]
      dsimp only
      refine ⟨by omega, i2, ?_, by simpa using i4, List.Forall₂.cons ⟨s4, s5⟩ i5⟩
      simp only [sumw_cons] at i3 ⊢
      omega

/-- The shrink loop: when it terminates without a stall the width is within
the terminal budget — exactly equal when the loop started over it — the
running width keeps tracking the sum, and tree columns are untouched. -/
theorem shrinkLoop_spec (tw : Nat) : ∀ (fuel : Nat) (cols : List Column) (w : Nat)
    (t : Bool) (res : List Column × Nat × Bool),
    shrinkLoop tw fuel cols w t = some res →
    res.2.1 + sumw cols = w + sumw res.1 ∧
    res.1.length = cols.length ∧
    (res.2.2 = false → res.2.1 ≤ tw ∧ (tw ≤ w → res.2.1 = tw)) ∧
    List.Forall₂ (fun a b => confSame a b ∧ (a.tree = true → b = a)) cols res.1 := by
  intro fuel
  induction fuel with
  | zero =>
    intro cols w t res h
    by_cases hb : w > tw
    · rw [shrinkLoop, if_pos hb] at h
      exact absurd h (by simp)
    · rw [shrinkLoop, if_neg hb] at h
      obtain rfl : (cols, w, false) = res := by simpa using h
      exact ⟨rfl, rfl, fun _ => ⟨by (try dsimp only) <;> omega,
          fun h2 => by (try dsimp only) <;> omega⟩,
        List.forall₂_same.mpr (fun a _ => ⟨⟨rfl, rfl, rfl, rfl, rfl⟩, fun _ => rfl⟩)⟩
  | succ f ih =>
    intro cols w t res h
    by_cases hb : w > tw
    · rw [shrinkLoop, if_pos hb] at h
      obtain ⟨s1, s2, s3, s4, s5⟩ := shrinkSweep_spec tw t cols w (by omega)
      by_cases hstall : (shrinkSweep tw t cols w).2 = w
      · rw [if_pos hstall] at h
        by_cases ht : t = true
        · rw [if_pos ht] at h
          obtain ⟨i1, i2, i3, i4⟩ := ih (shrinkSweep tw t cols w).1
            (shrinkSweep tw t cols w).2 false res h
          refine ⟨by omega, by omega, ?_, forall2_tree_trans s5 i4⟩
          intro hst
          obtain ⟨j1, j2⟩ := i3 hst
          exact ⟨j1, fun _ => j2 s2⟩
        · rw [if_neg ht] at h
          obtain rfl : ((shrinkSweep tw t cols w).1, (shrinkSweep tw t cols w).2, true) =
              res := by simpa using h
          exact ⟨by (try dsimp only) <;> omega, by (try dsimp only) <;> omega, by simp, s5⟩
      · rw [if_neg hstall] at h
        obtain ⟨i1, i2, i3, i4⟩ := ih (shrinkSweep tw t cols w).1
          (shrinkSweep tw t cols w).2 t res h
        refine ⟨by omega, by omega, ?_, forall2_tree_trans s5 i4⟩
        intro hst
        obtain ⟨j1, j2⟩ := i3 hst
        exact ⟨j1, fun _ => j2 s2⟩
    · rw [shrinkLoop, if_neg hb] at h
      obtain rfl : (cols, w, false) = res := by simpa using h
      exact ⟨rfl, rfl, fun _ => ⟨by (try dsimp only) <;> omega,
          fun h2 => by (try dsimp only) <;> omega⟩,
        List.forall₂_same.mpr (fun a _ => ⟨⟨rfl, rfl, rfl, rfl, rfl⟩, fun _ => rfl⟩)⟩

/-- Composition of the absorption relation with a pure growth phase. -/
theorem forall2_absorb_grow : ∀ {l1 l2 l3 : List Column},
    List.Forall₂ (fun a b => confSame a b ∧ (a.width ≤ b.width ∨ a.width_max ≤ b.width)) l1 l2 →
    List.Forall₂ (fun a b => confSame a b ∧ a.width ≤ b.width) l2 l3 →
    List.Forall₂ (fun a b => confSame a b ∧ (a.width ≤ b.width ∨ a.width_max ≤ b.width))
      l1 l3 := by
  intro l1 l2 l3 h12 h23
  induction h12 generalizing l3 with
  | nil => cases h23; exact List.Forall₂.nil
  | cons hab h12 ih =>
    cases h23 with
    | cons hbc h23 =>
      refine List.Forall₂.cons ⟨?_, ?_⟩ (ih h23)
      · obtain ⟨c1, c2, c3, c4, c5⟩ := hab.1
        obtain ⟨d1, d2, d3, d4, d5⟩ := hbc.1
        exact ⟨d1.trans c1, d2.trans c2, d3.trans c3, d4.trans c4, d5.trans c5⟩
      · rcases hab.2 with h | h
        · exact Or.inl (h.trans hbc.2)
        · exact Or.inr (h.trans hbc.2)

/-- Whenever the max-out fill loop returns, the width it returns is exactly
the terminal width and it tracked the sum of widths. -/
theorem fillLoop_some (tw : Nat) : ∀ (fuel : Nat) (cols : List Column) (w : Nat)
    (r : List Column × Nat), w < tw → fillLoop tw fuel cols w = some r →
    r.2 = tw ∧ r.2 + sumw cols = w + sumw r.1 ∧ r.1.length = cols.length ∧
    List.Forall₂ (fun a b => confSame a b ∧ a.width ≤ b.width) cols r.1 := by
  intro fuel
  induction fuel with
  | zero =>
    intro cols w r hw h
    rw [fillLoop, if_pos hw] at h
    exact absurd h (by simp)
  | succ f ih =>
    intro cols w r hw h
    rw [fillLoop, if_pos hw] at h
    replace h : fillLoop tw f (fillSweep tw cols w).1 (fillSweep tw cols w).2 = some r := h
    rcases List.eq_nil_or_concat cols with rfl | hne
    · have hsw : fillSweep tw [] w = ([], w) := rfl
      rw [hsw] at h
      obtain ⟨j1, j2, j3, j4⟩ := ih [] w r hw h
      exact ⟨j1, j2, j3, j4⟩
    · have hcne : cols ≠ [] := by
        obtain ⟨l, a, rfl⟩ := hne
        simp
      obtain ⟨s1, s2, s3, s4, s5⟩ := fillSweep_spec tw cols w hcne hw
      by_cases hlt : (fillSweep tw cols w).2 < tw
      · obtain ⟨j1, j2, j3, j4⟩ := ih (fillSweep tw cols w).1 (fillSweep tw cols w).2 r hlt h
        exact ⟨j1, by omega, by omega, forall2_grow_trans s5 j4⟩
      · have hval : (fillSweep tw cols w).2 = tw := by omega
        have hstop : fillLoop tw f (fillSweep tw cols w).1 (fillSweep tw cols w).2 =
            some ((fillSweep tw cols w).1, (fillSweep tw cols w).2) := by
          rw [fillLoop.eq_def]
          dsimp only
          rw [if_neg (by omega)]
        rw [hstop] at h
        obtain rfl : ((fillSweep tw cols w).1, (fillSweep tw cols w).2) = r := by
          simpa using h
        exact ⟨hval, by (try dsimp only) <;> omega, by (try dsimp only) <;> simpa using s4,
          by (try dsimp only) <;> exact s5⟩

/-- The growth block: the running width keeps tracking the sum, never
leaves the terminal budget once under it, is untouched when the width is
not below the budget, and reaches the budget exactly in max-out mode. -/
theorem phase45_spec (maxout : Bool) (tw fuel : Nat) (htw : tw < SZ)
    (cols : List Column) (w : Nat) (e : Int) (r : List Column × Nat)
    (hsum : sumw cols ≤ w) (h : phase45 maxout tw fuel cols w e = some r) :
    r.2 + sumw cols = w + sumw r.1 ∧
    r.1.length = cols.length ∧
    (w < tw → r.2 ≤ tw) ∧
    (¬ w < tw → r = (cols, w)) ∧
    (maxout = true → w < tw → r.2 = tw) ∧
    List.Forall₂ (fun a b => confSame a b ∧ (a.width ≤ b.width ∨ a.width_max ≤ b.width))
      cols r.1 := by
  by_cases hw : w < tw
  · rw [phase45, if_pos hw] at h
    -- the optional absorption step
    have habs : (if e ≠ 0 then absorb tw cols w else (cols, w)).2 +
          sumw cols = w + sumw (if e ≠ 0 then absorb tw cols w else (cols, w)).1 ∧
        sumw (if e ≠ 0 then absorb tw cols w else (cols, w)).1 ≤
          (if e ≠ 0 then absorb tw cols w else (cols, w)).2 ∧
        (if e ≠ 0 then absorb tw cols w else (cols, w)).2 ≤ tw ∧
        (if e ≠ 0 then absorb tw cols w else (cols, w)).1.length = cols.length ∧
        List.Forall₂
          (fun a b => confSame a b ∧ (a.width ≤ b.width ∨ a.width_max ≤ b.width))
          cols (if e ≠ 0 then absorb tw cols w else (cols, w)).1 := by
      split_ifs with he
      · exact absorb_spec tw htw cols w hsum hw
      · exact ⟨rfl, hsum, by omega, rfl,
          List.forall₂_same.mpr (fun a _ => confSame_refl a)⟩
    obtain ⟨a1, a2, a3, a4, a5⟩ := habs
    set p := if e ≠ 0 then absorb tw cols w else (cols, w) with hp
    by_cases hm : p.2 < tw ∧ maxout = true
    · rw [if_pos hm] at h
      obtain ⟨j1, j2, j3, j4⟩ := fillLoop_some tw fuel p.1 p.2 r hm.1 h
      exact ⟨by omega, by omega, fun _ => by omega, fun hc => absurd hw hc,
        fun _ _ => j1, forall2_absorb_grow a5 j4⟩
    · rw [if_neg hm] at h
      by_cases hs : p.2 < tw
      · rw [if_pos hs] at h
        obtain rfl : spillLast tw p.1 p.2 = r := by simpa using h
        obtain ⟨s1, s2, s3, s4⟩ := spillLast_spec tw p.1 p.2
        refine ⟨by omega, by omega, fun _ => by rcases s3 with h3 | h3 <;> omega,
          fun hc => absurd hw hc, fun hmax _ => absurd ⟨hs, hmax⟩ hm,
          forall2_absorb_grow a5 s4⟩
      · rw [if_neg hs] at h
        obtain rfl : p = r := by simpa using h
        exact ⟨a1, a4, fun _ => a3, fun hc => absurd hw hc, fun _ _ => by omega, a5⟩
  · rw [phase45, if_neg hw] at h
    obtain rfl : (cols, w) = r := by simpa using h
    exact ⟨rfl, rfl, fun hc => absurd hc hw, fun _ => rfl, fun _ hc => absurd hc hw,
      List.forall₂_same.mpr (fun a _ => confSame_refl a)⟩

theorem forall2_mem_right {R : Column → Column → Prop} :
    ∀ {l1 l2 : List Column}, List.Forall₂ R l1 l2 → ∀ b ∈ l2, ∃ a ∈ l1, R a b := by
  intro l1 l2 h
  induction h with
  | nil => intro b hb; exact absurd hb (by simp)
  | cons hab h ih =>
    intro b hb
    rcases List.mem_cons.mp hb with rfl | hb
    · exact ⟨_, List.mem_cons_self _ _, hab⟩
    · obtain ⟨a, ha, hr⟩ := ih b hb
      exact ⟨a, List.mem_cons_of_mem _ ha, hr⟩

/-- Claim C1: after `solve()` (`recount_widths`) on a terminal, either the
achieved total width `Σ width + (ncols-1)` fits the terminal budget or the
shrink loop stalled in its unrestricted pass; and with `max-out` set and no
stall, the total equals the budget exactly. -/
theorem recount_widths_budget (fuel : Nat) (tb : Table) (res : List Column × Nat × Bool)
    (h : recount_widths fuel tb = some res) (hterm : tb.is_term = true)
    (hsz : tb.termwidth < SZ) :
    (totalw res.1 ≤ tb.termwidth ∨ res.2.2 = true) ∧
    (tb.maxout = true → res.2.2 = false → totalw res.1 = tb.termwidth) := by
  obtain ⟨m1, m2, m3⟩ := measureAll_spec tb.cols
  simp only [recount_widths] at h
  rw [if_neg (by rw [hterm]; simp)] at h
  -- the optional extremes-reduction step
  have hmm : ∀ cl ∈ (measureAll tb.cols).1, (count_column_width cl).width ≤ cl.width := by
    intro cl hcl
    obtain ⟨a, _, rfl⟩ := forall2_mem_right m3 cl hcl
    exact ccw_remeasure_le a
  have hms : sumw (measureAll tb.cols).1 ≤ (measureAll tb.cols).2.1 := by
    rw [m1, totalw]
    omega
  by_cases hred : (measureAll tb.cols).2.1 > tb.termwidth ∧ (measureAll tb.cols).2.2 ≠ 0
  case pos =>
    rw [if_pos hred] at h
    obtain ⟨r1, r2, r3, r4⟩ := reduceExtremes_spec (measureAll tb.cols).1
      (measureAll tb.cols).2.1 (measureAll tb.cols).2.2 hmm hms
    rcases hp45 : phase45 tb.maxout tb.termwidth fuel
        (reduceExtremes (measureAll tb.cols).1 (measureAll tb.cols).2.1
          (measureAll tb.cols).2.2).1
        (reduceExtremes (measureAll tb.cols).1 (measureAll tb.cols).2.1
          (measureAll tb.cols).2.2).2.1
        (reduceExtremes (measureAll tb.cols).1 (measureAll tb.cols).2.1
          (measureAll tb.cols).2.2).2.2 with _ | p4
    · rw [hp45] at h
      exact absurd h (by simp)
    · rw [hp45] at h
      obtain ⟨p1, p2, p3, p4', p5, p6⟩ := phase45_spec tb.maxout tb.termwidth fuel hsz _ _ _
        p4 r2 hp45
      obtain ⟨s1, s2, s3, s4⟩ := shrinkLoop_spec tb.termwidth fuel p4.1 p4.2 true res h
      have htc : res.2.1 = totalw res.1 := by
        simp only [totalw] at m1 ⊢
        omega
      constructor
      · rcases hst : res.2.2 with _ | _
        · left
          obtain ⟨j1, j2⟩ := s3 hst
          omega
        · exact Or.inr rfl
      · intro hmax hst
        obtain ⟨j1, j2⟩ := s3 hst
        by_cases hlt : (reduceExtremes (measureAll tb.cols).1 (measureAll tb.cols).2.1
            (measureAll tb.cols).2.2).2.1 < tb.termwidth
        · have hw4 : p4.2 = tb.termwidth := p5 hmax hlt
          rw [htc] at j2
          omega
        · have hp : p4 = (_, _) := p4' hlt
          have hw4 : p4.2 = (reduceExtremes (measureAll tb.cols).1 (measureAll tb.cols).2.1
              (measureAll tb.cols).2.2).2.1 := by rw [hp]
          rw [htc] at j2
          omega
  case neg =>
    rw [if_neg hred] at h
    rcases hp45 : phase45 tb.maxout tb.termwidth fuel (measureAll tb.cols).1
        (measureAll tb.cols).2.1 (measureAll tb.cols).2.2 with _ | p4
    · rw [hp45] at h
      exact absurd h (by simp)
    · rw [hp45] at h
      obtain ⟨p1, p2, p3, p4', p5, p6⟩ := phase45_spec tb.maxout tb.termwidth fuel hsz _ _ _
        p4 hms hp45
      obtain ⟨s1, s2, s3, s4⟩ := shrinkLoop_spec tb.termwidth fuel p4.1 p4.2 true res h
      have htc : res.2.1 = totalw res.1 := by
        simp only [totalw] at m1 ⊢
        omega
      constructor
      · rcases hst : res.2.2 with _ | _
        · left
          obtain ⟨j1, j2⟩ := s3 hst
          omega
        · exact Or.inr rfl
      · intro hmax hst
        obtain ⟨j1, j2⟩ := s3 hst
        by_cases hlt : (measureAll tb.cols).2.1 < tb.termwidth
        · have hw4 : p4.2 = tb.termwidth := p5 hmax hlt
          rw [htc] at j2
          omega
        · have hp : p4 = (_, _) := p4' hlt
          have hw4 : p4.2 = (measureAll tb.cols).2.1 := by rw [hp]
          rw [htc] at j2
          omega

/-- Witness for `recount_widths_budget`: the one-column max-out table
`exC1` solves with total width exactly 10. -/
theorem recount_widths_budget_witness :
    (totalw exC1res.1 ≤ exC1.termwidth ∨ exC1res.2.2 = true) ∧
    (exC1.maxout = true → exC1res.2.2 = false → totalw exC1res.1 = exC1.termwidth) :=
  recount_widths_budget 100 exC1 exC1res (by decide) (by decide) (by decide)

/-- Every freshly measured column satisfies the suppressed-natural floor:
its width and its recorded maximum both dominate the suppressed maximum of
its own final measurement state. -/
theorem pcol_ccw (cl : Column) :
    suppMax (count_column_width cl) ≤ (count_column_width cl).width ∧
    suppMax (count_column_width cl) ≤ (count_column_width cl).width_max := by
  constructor
  · refine (suppMax_ccw_le cl).trans ?_
    rw [ccw_val]
    refine le_trans ?_ (ccwBump_width_ge _)
    rw [ccwFinalize_wd]
  · rw [suppMax, ccw_lens]
    rw [ccw_val, ccwBump_wmax, ccwFinalize_wmax]
    exact le_trans (filtMax_le_maxL _ _ _) (by simp)

/-- The suppressed-natural floor survives any phase that preserves the
measurement configuration and does not shrink the width below the recorded
maximum. -/
theorem pcol_transport (a b : Column)
    (hc : confSame a b) (hw : a.width ≤ b.width ∨ a.width_max ≤ b.width)
    (hp : suppMax a ≤ a.width ∧ suppMax a ≤ a.width_max) :
    suppMax b ≤ b.width ∧ suppMax b ≤ b.width_max := by
  obtain ⟨c1, c2, c3, c4, c5⟩ := hc
  have hsm : suppMax b = suppMax a := by rw [suppMax, suppMax, c1, c2, c3]
  rw [hsm, c4]
  rcases hw with h | h
  · exact ⟨hp.1.trans (le_trans (le_refl _) h), hp.2⟩
  · exact ⟨hp.2.trans h, hp.2⟩

/-- Claim C4 (amended): after `solve()`, every column carrying the tree
flag has a width no smaller than its suppressed natural data width — the
largest observed row width that the column's final measurement state
admits (rows wider than twice `width_avg` excluded once the column is
flagged extreme).  The extremes-reduction phase may lower a tree column to
this suppressed width (see `tree_natural_width_cex`), and the enlargement
underflow may undercut the header floor, but no phase goes below the
suppressed data width. -/
theorem tree_suppressed_floor (fuel : Nat) (tb : Table) (res : List Column × Nat × Bool)
    (h : recount_widths fuel tb = some res) (hsz : tb.termwidth < SZ) :
    ∀ cl ∈ res.1, cl.tree = true → suppMax cl ≤ cl.width := by
  obtain ⟨m1, m2, m3⟩ := measureAll_spec tb.cols
  have hPm : ∀ cl ∈ (measureAll tb.cols).1,
      suppMax cl ≤ cl.width ∧ suppMax cl ≤ cl.width_max := by
    intro cl hcl
    obtain ⟨a, _, rfl⟩ := forall2_mem_right m3 cl hcl
    exact pcol_ccw a
  simp only [recount_widths] at h
  by_cases hterm : tb.is_term = false
  · rw [if_pos hterm] at h
    obtain rfl : ((measureAll tb.cols).1, (measureAll tb.cols).2.1, false) = res := by
      simpa using h
    intro cl hcl _
    exact (hPm cl (by simpa using hcl)).1
  · rw [if_neg hterm] at h
    have hmm : ∀ cl ∈ (measureAll tb.cols).1, (count_column_width cl).width ≤ cl.width := by
      intro cl hcl
      obtain ⟨a, _, rfl⟩ := forall2_mem_right m3 cl hcl
      exact ccw_remeasure_le a
    have hms : sumw (measureAll tb.cols).1 ≤ (measureAll tb.cols).2.1 := by
      rw [m1, totalw]
      omega
    -- facts about the optional extremes-reduction step, uniformly
    have hrd : ∀ (rd : List Column × Nat × Int),
        (rd = reduceExtremes (measureAll tb.cols).1 (measureAll tb.cols).2.1
            (measureAll tb.cols).2.2 ∨
         rd = ((measureAll tb.cols).1, (measureAll tb.cols).2.1, (measureAll tb.cols).2.2)) →
        sumw rd.1 ≤ rd.2.1 ∧
        (∀ cl ∈ rd.1, suppMax cl ≤ cl.width ∧ suppMax cl ≤ cl.width_max) := by
      rintro rd (rfl | rfl)
      · obtain ⟨r1, r2, r3, r4⟩ := reduceExtremes_spec (measureAll tb.cols).1
          (measureAll tb.cols).2.1 (measureAll tb.cols).2.2 hmm hms
        refine ⟨r2, ?_⟩
        intro cl hcl
        obtain ⟨a, ha, hr⟩ := forall2_mem_right r4 cl hcl
        rcases hr with h1 | h1
        · rw [h1]; exact hPm a ha
        · rw [h1]; exact pcol_ccw a
      · exact ⟨hms, hPm⟩
    by_cases hred : (measureAll tb.cols).2.1 > tb.termwidth ∧ (measureAll tb.cols).2.2 ≠ 0
    case pos =>
      rw [if_pos hred] at h
      obtain ⟨hq1, hq2⟩ := hrd _ (Or.inl rfl)
      rcases hp45 : phase45 tb.maxout tb.termwidth fuel
          (reduceExtremes (measureAll tb.cols).1 (measureAll tb.cols).2.1
            (measureAll tb.cols).2.2).1
          (reduceExtremes (measureAll tb.cols).1 (measureAll tb.cols).2.1
            (measureAll tb.cols).2.2).2.1
          (reduceExtremes (measureAll tb.cols).1 (measureAll tb.cols).2.1
            (measureAll tb.cols).2.2).2.2 with _ | p4
      · rw [hp45] at h
        exact absurd h (by simp)
      · rw [hp45] at h
        obtain ⟨p1, p2, p3, p4', p5, p6⟩ := phase45_spec tb.maxout tb.termwidth fuel hsz _ _ _
          p4 hq1 hp45
        obtain ⟨s1, s2, s3, s4⟩ := shrinkLoop_spec tb.termwidth fuel p4.1 p4.2 true res h
        intro cl hcl htree
        obtain ⟨b, hb, hcb, hdb⟩ := forall2_mem_right s4 cl hcl
        obtain ⟨-, -, -, -, hct⟩ := hcb
        have hbt : b.tree = true := by rw [← hct]; exact htree
        obtain rfl : cl = b := hdb hbt
        obtain ⟨a, ha, hconf, hwrel⟩ := forall2_mem_right p6 cl hb
        exact (pcol_transport a cl hconf hwrel (hq2 a ha)).1
    case neg =>
      rw [if_neg hred] at h
      obtain ⟨hq1, hq2⟩ := hrd _ (Or.inr rfl)
      rcases hp45 : phase45 tb.maxout tb.termwidth fuel (measureAll tb.cols).1
          (measureAll tb.cols).2.1 (measureAll tb.cols).2.2 with _ | p4
      · rw [hp45] at h
        exact absurd h (by simp)
      · rw [hp45] at h
        obtain ⟨p1, p2, p3, p4', p5, p6⟩ := phase45_spec tb.maxout tb.termwidth fuel hsz _ _ _
          p4 hq1 hp45
        obtain ⟨s1, s2, s3, s4⟩ := shrinkLoop_spec tb.termwidth fuel p4.1 p4.2 true res h
        intro cl hcl htree
        obtain ⟨b, hb, hcb, hdb⟩ := forall2_mem_right s4 cl hcl
        obtain ⟨-, -, -, -, hct⟩ := hcb
        have hbt : b.tree = true := by rw [← hct]; exact htree
        obtain rfl : cl = b := hdb hbt
        obtain ⟨a, ha, hconf, hwrel⟩ := forall2_mem_right p6 cl hb
        exact (pcol_transport a cl hconf hwrel (hq2 a ha)).1

/-- Witness for `tree_suppressed_floor`: on `exT4` the tree column ends at
width 4, above its suppressed natural width 1. -/
theorem tree_suppressed_floor_witness :
    suppMax exT4res.1.headI ≤ exT4res.1.headI.width := by
  have h := tree_suppressed_floor 100 exT4 exT4res (by decide) (by decide)
  exact h exT4res.1.headI (by decide) (by decide)

/-- Claim C9: with at least one column and the running total strictly
below the terminal width on entry, the round-robin +1 fill loop (source
lines 449-457) terminates — a fuel budget of the missing width suffices —
and on exit the total equals the terminal width exactly, never
overshooting: the loop stops mid-sweep the moment the budget is met. -/
theorem maxout_fill_exact (tw fuel : Nat) (cols : List Column) (w : Nat)
    (hne : cols ≠ []) (hw : w < tw) (hfuel : tw - w ≤ fuel) :
    ∃ cols', fillLoop tw fuel cols w = some (cols', tw) ∧
      tw + sumw cols = w + sumw cols' ∧ cols'.length = cols.length := by
  obtain ⟨cols', h1, h2, h3, _⟩ := fillLoop_spec tw fuel cols w hne (le_of_lt hw) hfuel
  exact ⟨cols', h1, h2, h3⟩

/-- Witness for `maxout_fill_exact`: one column of width 5, total 7,
terminal width 10; the loop ends at exactly 10 with the column at 8. -/
theorem maxout_fill_exact_witness :
    ∃ cols', fillLoop 10 10 [exC2] 7 = some (cols', 10) ∧
      10 + sumw [exC2] = 7 + sumw cols' ∧ cols'.length = ([exC2] : List Column).length :=
  maxout_fill_exact 10 10 [exC2] 7 (List.cons_ne_nil _ _) (by decide) (by decide)

/-- The empty string is a left identity for string append. -/
theorem str_empty_append (s : String) : "" ++ s = s := rfl

/-- String append is associative. -/
theorem str_append_assoc (a b c : String) : a ++ b ++ c = a ++ (b ++ c) := by
  cases a with | mk la => cases b with | mk lb => cases c with | mk lc =>
  exact congrArg String.mk (List.append_assoc la lb lc)

/-- Byte length distributes over string append. -/
theorem bytesOf_append (s t : String) : bytesOf (s ++ t) = bytesOf s + bytesOf t := by
  cases s with | mk ls => cases t with | mk lt =>
  show ((ls ++ lt).map Char.utf8Size).sum = _
  rw [List.map_append, List.sum_append]
  rfl

/-- Appending a final element to a joined list appends its text. -/
theorem joinStr_snoc (l : List String) (a : String) :
    joinStr (l ++ [a]) = joinStr l ++ a := by
  induction l with
  | nil =>
    show a ++ "" = "" ++ a
    rw [str_empty_append]
    cases a with | mk la =>
    show String.mk (la ++ []) = String.mk la
    rw [List.append_nil]
  | cons s r ih =>
    show s ++ joinStr (r ++ [a]) = s ++ joinStr r ++ a
    rw [ih, str_append_assoc]

/-- A character list that fits the byte budget survives `takeBytesL`. -/
theorem takeBytesL_of_le : ∀ (l : List Char) (n : Nat),
    (l.map Char.utf8Size).sum ≤ n → takeBytesL l n = l := by
  intro l
  induction l with
  | nil => intro n _; rfl
  | cons c cs ih =>
    intro n h
    simp only [List.map_cons, List.sum_cons] at h
    rw [takeBytesL, if_pos (by omega), ih (n - c.utf8Size) (by omega)]

/-- A string that fits the byte budget survives `takeBytes`. -/
theorem takeBytes_of_le (s : String) (n : Nat) (h : bytesOf s ≤ n) : takeBytes s n = s := by
  cases s with | mk l =>
  exact congrArg String.mk (takeBytesL_of_le l n h)

/-- With well-founded parents, enough fuel, and a buffer that fits the
glyphs, `line_get_ascii_art` lays down exactly the joined ancestor glyph
list and consumes its byte length from the remaining buffer space. -/
theorem art_some (tb : Table) (hwf : parentsWF tb = true) :
    ∀ (fuel : Nat), ∀ (i bufsz : Nat), i < fuel → i < tb.lines.length →
    bytesOf (joinStr (ancGlyphs tb fuel i)) ≤ bufsz →
    line_get_ascii_art tb fuel i bufsz =
      some (joinStr (ancGlyphs tb fuel i),
            bufsz - bytesOf (joinStr (ancGlyphs tb fuel i))) := by
  intro fuel
  induction fuel with
  | zero => intro i bufsz hif _ _; omega
  | succ f ih =>
    intro i bufsz hif hil hbytes
    rcases hpar : parentOf tb i with _ | p
    · have hg : ancGlyphs tb (f + 1) i = [] := by
        rw [ancGlyphs, hpar]
      rw [hg] at hbytes ⊢
      rw [line_get_ascii_art, hpar]
      rfl
    · have hpi : p < i := by
        have hall := (List.all_eq_true.mp hwf) i (List.mem_range.mpr hil)
        rw [hpar] at hall
        exact of_decide_eq_true hall
      have hg : ancGlyphs tb (f + 1) i =
          ancGlyphs tb f p ++ [if isLastChild tb i then "  " else tb.symbols_vert] := by
        rw [ancGlyphs, hpar]
      rw [hg, joinStr_snoc, bytesOf_append] at hbytes
      have hih := ih p bufsz (by omega) (by omega)
        (by omega)
      rw [line_get_ascii_art, hpar]
      dsimp only
      rw [hih]
      have hnb : ¬ (bufsz - bytesOf (joinStr (ancGlyphs tb f p)) <
          bytesOf (if isLastChild tb i then "  " else tb.symbols_vert)) := by omega
      simp only [if_neg hnb]
      rw [hg, joinStr_snoc, bytesOf_append, ← Nat.sub_sub]

/-- Claim C7: for a tree-column cell on line `i` with present data and a
parent `p` — parents sitting earlier in the line list and the buffer large
enough — `line_get_data` renders one glyph per non-root ancestor from the
root's child down to the parent (two spaces when that ancestor is the last
child among its siblings, else the `vert` glyph), then the line's own
connector (`right` for a last child, `branch` otherwise), then the data. -/
theorem line_get_data_tree (tb : Table) (i : Nat) (cl : Column) (bufsz : Nat)
    (ln : TLine) (data : String) (p : Nat)
    (hwf : parentsWF tb = true)
    (hln : getLine tb i = some ln)
    (htree : cl.tree = true)
    (hcell : (ln.cells.get? cl.seqnum).bind (fun c => c.data) = some data)
    (hpar : ln.parent = some p)
    (hbuf : bytesOf (joinStr (ancGlyphs tb (tb.lines.length + 1) p)) +
            bytesOf ((if isLastChild tb i then tb.symbols_right else tb.symbols_branch)
              ++ data) < bufsz) :
    line_get_data tb i cl bufsz =
      some (joinStr (ancGlyphs tb (tb.lines.length + 1) p) ++
        ((if isLastChild tb i then tb.symbols_right else tb.symbols_branch) ++ data)) := by
  have hil : i < tb.lines.length := by
    by_contra hc
    rw [getLine, List.get?_eq_none.mpr (Nat.le_of_not_lt hc)] at hln
    exact Option.noConfusion hln
  have hpo : parentOf tb i = some p := by rw [parentOf, hln]; exact hpar
  have hpi : p < i := by
    have hall := (List.all_eq_true.mp hwf) i (List.mem_range.mpr hil)
    rw [hpo] at hall
    exact of_decide_eq_true hall
  have hart := art_some tb hwf (tb.lines.length + 1) p bufsz (by omega) (by omega)
    (by omega)
  rw [line_get_data, hln]
  dsimp only
  rw [hcell]
  dsimp only
  rw [if_neg (by rw [htree]; exact fun h => Bool.noConfusion h), hpar]
  dsimp only
  rw [hart]
  dsimp only
  rw [snprintfStr, if_neg (by omega),
    takeBytes_of_le _ _ (by omega)]

/-- Witness for `line_get_data_tree`: the grandchild `g` of the example
forest renders as two spaces (its ancestor `c2` is a last child), the
`right` connector (`g` is an only child) and the data. -/
theorem line_get_data_tree_witness :
    line_get_data exC7tb 3 exC7cl 64 = some "  L-g" := by
  have h := line_get_data_tree exC7tb 3 exC7cl 64 exC7g "g" 2 (by decide) (by decide)
    (by decide) (by decide) (by decide) (by decide)
  rw [h]; decide

/-- Claim C10: in human mode, a cell whose safe-encoded data has display
width zero or the unmeasurable sentinel produces only padding — `cl.width`
spaces, or none for a non-max-out last column — followed by the single
separator space when the column is not last: no data bytes and no color
escapes. -/
theorem print_data_blank (ext : ExtFns) (tb : Table) (cl : Column) (ln : Option TLine)
    (ce : Option TCell) (data0 : Option String) (is_last : Bool)
    (hraw : tb.raw = false) (hexp : tb.exportFmt = false)
    (henc : (ext.safe_encode (data0.getD "")).2 = some 0 ∨
            (ext.safe_encode (data0.getD "")).2 = none) :
    print_data ext tb cl ln ce data0 is_last =
      String.mk (List.replicate (if is_last ∧ tb.maxout = false then 0 else cl.width) ' ')
        ++ (if is_last then "" else " ") := by
  have hW : (if is_last ∧ (0:Nat) < cl.width ∧ tb.maxout = false then (0:Nat) else cl.width) =
      (if is_last ∧ tb.maxout = false then 0 else cl.width) := by
    rcases Nat.eq_zero_or_pos cl.width with h0 | h0 <;>
      by_cases hl : is_last = true <;> by_cases hm : tb.maxout = false <;>
        simp [hl, hm, h0] <;> omega
  rcases henc with h | h <;>
  · simp only [print_data, hraw, hexp, h, Bool.false_eq_true, if_false]
    simp only [gt_iff_lt, Nat.not_lt_zero, false_and, if_false, Nat.sub_zero]
    rw [hW, str_empty_append]

/-- Witness for `print_data_blank`: a width-3 non-last column with empty
data yields three padding spaces and the separator. -/
theorem print_data_blank_witness :
    print_data extId exC10tb exC10cl none none (some "") false = "    " := by
  have h := print_data_blank extId exC10tb exC10cl none none (some "") false rfl rfl
    (Or.inl rfl)
  rw [h]; decide

/-- Claim C8 (counterexample): with a valid empty table and a failing line
buffer allocation, `scols_print_table` reports `-ENOMEM`, yet
`scols_print_table_to_string` — whose own stream creation succeeded —
discards that inner status and reports success. -/
theorem print_to_string_status_cex :
    scols_print_table extId (some exC8) false 80 false 10 = some (-ENOMEM, "") ∧
    scols_print_table_to_string extId true true (some exC8) false 80 false 10 =
      some (0, some "") := by
  constructor
  · rfl
  · rfl

/-- Claim C8 (amended): `scols_print_table_to_string` reports `-ENOSYS`
without in-memory stream support, `-EINVAL` for an absent table and
`-ENOMEM` when the stream cannot be created; in every other case it
returns 0 with whatever `scols_print_table` wrote into the buffer,
discarding the inner status — the two entry points do not share failure
semantics beyond the sink. -/
theorem print_to_string_semantics (ext : ExtFns) (tb : Table) (istty : Bool) (termw : Nat)
    (mallocOk : Bool) (fuel : Nat) (st : Int) (out : String)
    (h : scols_print_table ext (some tb) istty termw mallocOk fuel = some (st, out)) :
    scols_print_table_to_string ext true true (some tb) istty termw mallocOk fuel =
      some (0, some out) ∧
    scols_print_table_to_string ext false true (some tb) istty termw mallocOk fuel =
      some (-ENOSYS, none) ∧
    scols_print_table_to_string ext true true none istty termw mallocOk fuel =
      some (-EINVAL, none) ∧
    scols_print_table_to_string ext true false (some tb) istty termw mallocOk fuel =
      some (-ENOMEM, none) := by
  refine ⟨?_, rfl, rfl, rfl⟩
  have hdef : scols_print_table_to_string ext true true (some tb) istty termw mallocOk fuel =
      (match scols_print_table ext (some tb) istty termw mallocOk fuel with
       | none => none
       | some r => some ((0 : Int), some r.2)) := rfl
  rw [hdef, h]

/-- Witness for `print_to_string_semantics` at the empty table with a
failing inner allocation. -/
theorem print_to_string_semantics_witness :
    scols_print_table_to_string extId true true (some exC8) false 80 false 10 =
      some (0, some "") ∧
    scols_print_table_to_string extId false true (some exC8) false 80 false 10 =
      some (-ENOSYS, none) ∧
    scols_print_table_to_string extId true true none false 80 false 10 =
      some (-EINVAL, none) ∧
    scols_print_table_to_string extId true false (some exC8) false 80 false 10 =
      some (-ENOMEM, none) :=
  print_to_string_semantics extId exC8 false 80 false 10 (-ENOMEM) "" (by decide)
